import Mathlib

/-!
# StravaCal — verification of the reconciler and ICS serializer

Shallow embedding of the StravaCal Go program. Strings are modelled as
`List Char` (one `Char` per unit), absolute instants as `Int` seconds,
and the Google-Calendar mutation interface as an explicit operation list
applied to a snapshot of external items. Each definition is translated
from the corresponding Go function; definitions that exist only to state
a spec-side reference are marked as such in their doc comments.
-/

set_option maxRecDepth 4000

namespace StravaCal

/-! ## Generic string helpers (Go `strings` package operations) -/

/-- Scanner of `strings.ReplaceAll`, structurally recursive on a fuel
bound that always dominates the remaining input's length. -/
def replaceAllGo (pat rep : List Char) : Nat → List Char → List Char
  | _, [] => []
  | 0, s => s
  | fuel + 1, c :: rest =>
    if pat ≠ [] ∧ pat.isPrefixOf (c :: rest) then
      rep ++ replaceAllGo pat rep fuel ((c :: rest).drop pat.length)
    else
      c :: replaceAllGo pat rep fuel rest

/-- `strings.ReplaceAll`: replace every non-overlapping occurrence of
`pat` in `s` by `rep`, scanning left to right; the replacement text is
not rescanned. An empty pattern leaves the string unchanged (the Go
empty-pattern insertion behaviour is never exercised here). -/
def replaceAll (s pat rep : List Char) : List Char :=
  replaceAllGo pat rep s.length s

/-- The characters Go's `unicode.IsSpace` recognises — the Unicode
White_Space class: U+0009–U+000D, space, NEL, NBSP, OGHAM SPACE MARK,
U+2000–U+200A, LINE/PARAGRAPH SEPARATOR, NARROW NBSP, MMSP, IDEOGRAPHIC
SPACE. `fmt`'s scanner space table is this same set. -/
def isSpaceChar (c : Char) : Bool :=
  (9 ≤ c.toNat ∧ c.toNat ≤ 13) ∨ c.toNat = 32 ∨ c.toNat = 0x85 ∨ c.toNat = 0xa0
    ∨ c.toNat = 0x1680 ∨ (0x2000 ≤ c.toNat ∧ c.toNat ≤ 0x200a)
    ∨ c.toNat = 0x2028 ∨ c.toNat = 0x2029 ∨ c.toNat = 0x202f
    ∨ c.toNat = 0x205f ∨ c.toNat = 0x3000

/-- `strings.TrimSpace`: drop leading and trailing whitespace. -/
def trimSpace (s : List Char) : List Char :=
  ((s.dropWhile isSpaceChar).reverse.dropWhile isSpaceChar).reverse

/-! ## Decimal rendering and scanning (`fmt` `%d` verb) -/

/-- The character of a decimal digit (`'0' + d`, as Go's integer
formatting emits). -/
def toDigitChar (d : Nat) : Char := Char.ofNat (48 + d)

/-- Digit emitter, structurally recursive on a fuel bound dominating the
value. -/
def natToDigitsGo : Nat → Nat → List Char
  | 0, n => [toDigitChar n]
  | fuel + 1, n =>
    if n < 10 then [toDigitChar n]
    else natToDigitsGo fuel (n / 10) ++ [toDigitChar (n % 10)]

/-- Decimal digit run of a natural number, most significant first
(Go `fmt` `%d` on a non-negative value). -/
def natToDigits (n : Nat) : List Char := natToDigitsGo n n

/-- Value of a digit character. -/
def digitVal (c : Char) : Nat := c.toNat - 48

/-- Value of a run of decimal digit characters. -/
def digitsToNat (ds : List Char) : Nat :=
  ds.foldl (fun acc c => 10 * acc + digitVal c) 0

/-- Go `%d` formatting of a (possibly negative) integer: optional minus
sign followed by the decimal digits of the magnitude. -/
def intToChars (i : Int) : List Char :=
  if i < 0 then '-' :: natToDigits i.natAbs else natToDigits i.natAbs

/-! ### Digit lemmas -/

theorem toDigitChar_toNat {d : Nat} (h : d < 10) :
    (toDigitChar d).toNat = 48 + d := by
  interval_cases d <;> decide

theorem toDigitChar_isDigit {d : Nat} (h : d < 10) :
    (toDigitChar d).isDigit = true := by
  interval_cases d <;> decide

theorem digitVal_toDigitChar {d : Nat} (h : d < 10) :
    digitVal (toDigitChar d) = d := by
  simp [digitVal, toDigitChar_toNat h]

theorem natToDigitsGo_ne_nil (fuel n : Nat) : natToDigitsGo fuel n ≠ [] := by
  cases fuel with
  | zero => simp [natToDigitsGo]
  | succ f =>
    rw [natToDigitsGo]
    split <;> simp

theorem natToDigits_ne_nil (n : Nat) : natToDigits n ≠ [] :=
  natToDigitsGo_ne_nil n n

theorem natToDigitsGo_all_digits :
    ∀ (fuel n : Nat), n ≤ fuel → ∀ c ∈ natToDigitsGo fuel n, c.isDigit = true := by
  intro fuel
  induction fuel with
  | zero =>
    intro n hn c hc
    obtain rfl : n = 0 := by omega
    simp only [natToDigitsGo, List.mem_singleton] at hc
    subst hc
    exact toDigitChar_isDigit (by omega)
  | succ f ih =>
    intro n hn c hc
    rw [natToDigitsGo] at hc
    by_cases h10 : n < 10
    · rw [if_pos h10] at hc
      simp only [List.mem_singleton] at hc
      subst hc
      exact toDigitChar_isDigit h10
    · rw [if_neg h10] at hc
      rcases List.mem_append.mp hc with h1 | h2
      · exact ih (n / 10) (by omega) c h1
      · simp only [List.mem_singleton] at h2
        subst h2
        exact toDigitChar_isDigit (Nat.mod_lt _ (by omega))

theorem natToDigits_all_digits (n : Nat) :
    ∀ c ∈ natToDigits n, c.isDigit = true :=
  natToDigitsGo_all_digits n n (Nat.le_refl n)

theorem digitsToNat_append_singleton (ds : List Char) (c : Char) :
    digitsToNat (ds ++ [c]) = 10 * digitsToNat ds + digitVal c := by
  simp [digitsToNat, List.foldl_append]

theorem digitsToNat_natToDigitsGo :
    ∀ (fuel n : Nat), n ≤ fuel → digitsToNat (natToDigitsGo fuel n) = n := by
  intro fuel
  induction fuel with
  | zero =>
    intro n hn
    obtain rfl : n = 0 := by omega
    simp [natToDigitsGo, digitsToNat, digitVal_toDigitChar]
  | succ f ih =>
    intro n hn
    rw [natToDigitsGo]
    by_cases h10 : n < 10
    · rw [if_pos h10]
      simp [digitsToNat, digitVal_toDigitChar h10]
    · rw [if_neg h10, digitsToNat_append_singleton, ih (n / 10) (by omega),
        digitVal_toDigitChar (Nat.mod_lt _ (by omega))]
      omega

theorem digitsToNat_natToDigits (n : Nat) :
    digitsToNat (natToDigits n) = n :=
  digitsToNat_natToDigitsGo n n (Nat.le_refl n)

/-! ## Correlation identifiers (`<id>@strava.com`)

`createGoogleCalendarEvent` emits `fmt.Sprintf("%d@strava.com", event.ID)`
as the `ICalUID` of a managed item; `syncStravaEvents` recovers the id with
`fmt.Sscanf(uid, "%d@strava.com", &stravaID)` and treats the item as
unmanaged when the scan errors, scans less than one item, or yields zero. -/

/-- The fixed domain suffix of a correlation identifier. -/
def suffixChars : List Char := '@' :: ('s' :: ('t' :: ('r' :: ('a' :: ('v' :: ('a' :: ('.' :: ('c' :: ('o' :: ['m'])))))))))

/-- `fmt.Sprintf("%d@strava.com", id)`. -/
def formatCorrelation (id : Int) : List Char :=
  intToChars id ++ suffixChars

/-- `fmt`'s scanner space table — the same set as the White_Space class
used by `strings.TrimSpace`. -/
def isScanSpace (c : Char) : Bool := isSpaceChar c

/-- The scanner's `SkipSpace` before a `%d` verb in single-line `Sscanf`
mode: space characters are consumed, but a newline — or a CR directly
followed by LF — raises the "unexpected newline" error (`none`), since a
newline in the input would have to match a newline in the format. A bare
CR counts as a space. -/
def skipSpace : List Char → Option (List Char)
  | [] => some []
  | c :: rest =>
    if c = '\r' ∧ rest.head? = some '\n' then none
    else if c = '\n' then none
    else if isScanSpace c then skipSpace rest
    else some (c :: rest)

/-- The optional sign accepted by the scanner's `%d` verb: `true` means
a minus sign was consumed. -/
def splitSign (s : List Char) : Bool × List Char :=
  match s with
  | [] => (false, [])
  | c :: r => if c = '-' then (true, r) else if c = '+' then (false, r) else (false, c :: r)

/-- The reconciler's correlation parser, the composite of
`fmt.Sscanf(uid, "%d@strava.com", &stravaID)` and the call-site guard
`err != nil || n != 1 || stravaID == 0`: skip leading whitespace (the
scanner's full space class; a newline aborts the scan), scan an
optionally signed decimal `int64` (range-checked), require the literal
`@strava.com` to follow (text after it is ignored, as `Sscanf` does not
demand that its input be exhausted), and reject a zero value. -/
def parseCorrelation (s : List Char) : Option Int :=
  match skipSpace s with
  | none => none
  | some s1 =>
    let sp := splitSign s1
    let ds := sp.2.takeWhile Char.isDigit
    let rest := sp.2.dropWhile Char.isDigit
    if ds = [] then none
    else if ¬ (suffixChars.isPrefixOf rest) then none
    else
      let v : Int := if sp.1 then -(digitsToNat ds : Int) else (digitsToNat ds : Int)
      if v < -(2 ^ 63) ∨ 2 ^ 63 ≤ v then none
      else if v = 0 then none
      else some v

/-- Modelled from the spec: the exact correlation format
`<integer>@<fixed-domain-suffix>` — an optional minus sign, at least one
decimal digit, then exactly `@strava.com` and nothing else. Used only to
state claims that speak about the spec's format, never by the embedded
code. -/
def specExactFormat (s : List Char) : Bool :=
  let s1 := match s with
    | '-' :: r => r
    | r => r
  let ds := s1.takeWhile Char.isDigit
  let rest := s1.dropWhile Char.isDigit
  ¬ ds = [] ∧ rest = suffixChars

/-! ### Correlation round-trip lemmas -/

theorem isDigit_toNat_bounds {x : Char} (hx : x.isDigit = true) :
    48 ≤ x.toNat ∧ x.toNat ≤ 57 := by
  simp only [Char.isDigit, Bool.and_eq_true, decide_eq_true_eq, ge_iff_le] at hx
  exact ⟨UInt32.le_toNat_of_le (by norm_num) hx.1,
    UInt32.toNat_le_of_le (by norm_num) hx.2⟩

theorem isDigit_not_space {x : Char} (hx : x.isDigit = true) :
    isSpaceChar x = false := by
  obtain ⟨hb1, hb2⟩ := isDigit_toNat_bounds hx
  cases h : isSpaceChar x with
  | false => rfl
  | true =>
    exfalso
    simp only [isSpaceChar, decide_eq_true_eq] at h
    omega

theorem isDigit_ne_special {x : Char} (hx : x.isDigit = true) :
    x ≠ '-' ∧ x ≠ '+' ∧ x ≠ '\r' ∧ x ≠ '\n' ∧ isScanSpace x = false := by
  refine ⟨?_, ?_, ?_, ?_, isDigit_not_space hx⟩
  all_goals intro hcon; rw [hcon] at hx; exact absurd hx (by decide)

theorem skipSpace_cons_of_plain {c : Char} (t : List Char)
    (h1 : c ≠ '\r') (h2 : c ≠ '\n') (h3 : isScanSpace c = false) :
    skipSpace (c :: t) = some (c :: t) := by
  rw [skipSpace, if_neg (fun hc => h1 hc.1), if_neg h2]
  simp [h3]

theorem takeWhile_digits_suffix (a : List Char)
    (ha : ∀ c ∈ a, Char.isDigit c = true) :
    (a ++ suffixChars).takeWhile Char.isDigit = a ∧
      (a ++ suffixChars).dropWhile Char.isDigit = suffixChars := by
  induction a with
  | nil => exact ⟨by decide, by decide⟩
  | cons x xs ih =>
    have hx : x.isDigit = true := ha x (by simp)
    have := ih (fun c hc => ha c (by simp [hc]))
    simp [List.takeWhile_cons, List.dropWhile_cons, hx, this.1, this.2]

theorem dropWhile_cons_of_false {p : Char → Bool} {x : Char} (t : List Char)
    (h : p x = false) : (x :: t).dropWhile p = x :: t := by
  simp [List.dropWhile_cons, h]

theorem splitSign_cons_of_plain {x : Char} (r : List Char)
    (h1 : x ≠ '-') (h2 : x ≠ '+') : splitSign (x :: r) = (false, x :: r) := by
  simp [splitSign, h1, h2]

theorem parse_format_correlation {id : Int} (hnz : id ≠ 0)
    (hlo : -(2 ^ 63) ≤ id) (hhi : id < 2 ^ 63) :
    parseCorrelation (formatCorrelation id) = some id := by
  have hdig := natToDigits_all_digits id.natAbs
  have hval := digitsToNat_natToDigits id.natAbs
  have hne := natToDigits_ne_nil id.natAbs
  have hsplit := takeWhile_digits_suffix (natToDigits id.natAbs) hdig
  have hpre : suffixChars.isPrefixOf suffixChars = true := by decide
  obtain ⟨x, xs, hnd⟩ : ∃ x xs, natToDigits id.natAbs = x :: xs := by
    cases h : natToDigits id.natAbs with
    | nil => exact absurd h hne
    | cons x xs => exact ⟨x, xs, rfl⟩
  have hx : x.isDigit = true := hdig x (by rw [hnd]; simp)
  obtain ⟨hxm, hxp, hxr, hxn, hxs⟩ := isDigit_ne_special hx
  rcases lt_or_ge id 0 with hneg | hpos
  · have hfc : formatCorrelation id = '-' :: (natToDigits id.natAbs ++ suffixChars) := by
      simp [formatCorrelation, intToChars, hneg]
    have hdrop : skipSpace ('-' :: (natToDigits id.natAbs ++ suffixChars))
        = some ('-' :: (natToDigits id.natAbs ++ suffixChars)) :=
      skipSpace_cons_of_plain _ (by decide) (by decide) (by decide)
    have hsign : splitSign ('-' :: (natToDigits id.natAbs ++ suffixChars))
        = (true, natToDigits id.natAbs ++ suffixChars) := by
      simp [splitSign]
    unfold parseCorrelation
    rw [hfc, hdrop]
    simp only [hsign, hsplit.1, hsplit.2, hval]
    rw [if_neg (by simpa using hne), if_neg (by simp [hpre])]
    have habs : (id.natAbs : Int) = -id := by omega
    rw [habs]
    have hA : ¬((-(-id) : Int) < -(2 ^ 63) ∨ (2 ^ 63 : Int) ≤ -(-id)) := by omega
    have hB : (-(-id) : Int) ≠ 0 := by omega
    simp [hA, hB]
    omega
  · have hfc : formatCorrelation id = natToDigits id.natAbs ++ suffixChars := by
      simp only [formatCorrelation, intToChars]
      rw [if_neg (by omega)]
    have hdrop : skipSpace (natToDigits id.natAbs ++ suffixChars)
        = some (natToDigits id.natAbs ++ suffixChars) := by
      rw [hnd, List.cons_append]
      exact skipSpace_cons_of_plain _ hxr hxn hxs
    have hsign : splitSign (natToDigits id.natAbs ++ suffixChars)
        = (false, natToDigits id.natAbs ++ suffixChars) := by
      rw [hnd, List.cons_append]
      exact splitSign_cons_of_plain _ hxm hxp
    unfold parseCorrelation
    rw [hfc, hdrop]
    simp only [hsign, hsplit.1, hsplit.2, hval]
    rw [if_neg (by simpa using hne), if_neg (by simp [hpre])]
    have habs : (id.natAbs : Int) = id := by omega
    rw [habs]
    have hA : ¬((id : Int) < -(2 ^ 63) ∨ (2 ^ 63 : Int) ≤ id) := by omega
    simp [hA, hnz]
    omega

/-! ## Data model (`models.go`) -/

/-- The canonical club event (Go `Event`). `Start`/`End` are absolute
instants in seconds; text fields are unit lists. -/
structure Event where
  ID : Int
  Title : List Char
  Start : Int
  End_ : Int
  Description : List Char
  URL : List Char
  Location : List Char
  Organizer : List Char
  SkillLevels : Option Int := none
  Terrain : Option Int := none
  deriving DecidableEq, Inhabited

/-- The raw Strava API payload for one event (Go `StravaEvent`),
restricted to the fields `convertStravaEvent` reads. -/
structure StravaEvent where
  ID : Int
  Title : List Char
  Description : List Char
  OrganizingFirstName : List Char
  OrganizingLastName : List Char
  UpcomingOccurrences : List (List Char)
  Address : List Char
  SkillLevels : Option Int := none
  Terrain : Option Int := none
  deriving DecidableEq, Inhabited

/-- A Google Calendar item as returned by `Events.List`: an opaque item
id, the correlation tag (`ICalUID`), and the fields the reconciler
compares. Start/end are the instants the RFC 3339 `DateTime` strings
denote (an unparseable string stands for Go's zero time, instant `0`). -/
structure GCalItem where
  id : Nat
  iCalUID : List Char
  summary : List Char
  start : Int
  end_ : Int
  description : List Char
  deriving DecidableEq, Inhabited

/-- The full record `createGoogleCalendarEvent` composes (the argument
of `Events.Insert`/`Events.Update`). -/
structure CalRecord where
  summary : List Char
  location : List Char
  description : List Char
  start : Int
  end_ : Int
  iCalUID : List Char
  sourceUrl : List Char
  deriving DecidableEq, Inhabited

/-- One mutation issued against the external calendar. -/
inductive Op where
  | delete (itemId : Nat)
  | update (itemId : Nat) (rec : CalRecord)
  | create (rec : CalRecord)
  deriving DecidableEq, Inhabited

/-! ## The reconciler (`syncStravaEvents`, `createGoogleCalendarEvent`) -/

/-- Literal text of the description template
`"Leader: %s\n\nLocation: %s\n\n%s\n\nView on Strava: %s\n\nSynced from Strava Club %s on %s"`. -/
def composeDescription (ev : Event) (clubID syncTime : List Char) : List Char :=
  ("Leader: ".toList ++ ev.Organizer)
    ++ ("\n\nLocation: ".toList ++ ev.Location)
    ++ ("\n\n".toList ++ ev.Description)
    ++ ("\n\nView on Strava: ".toList ++ ev.URL)
    ++ ("\n\nSynced from Strava Club ".toList ++ clubID)
    ++ (" on ".toList ++ syncTime)

/-- `createGoogleCalendarEvent`: the full record derived from a desired
event (timezone conversion does not change the instants). -/
def createGoogleCalendarEvent (ev : Event) (syncTime clubID : List Char) : CalRecord :=
  { summary := ev.Title
    location := ev.Location
    description := composeDescription ev clubID syncTime
    start := ev.Start
    end_ := ev.End_
    iCalUID := formatCorrelation ev.ID
    sourceUrl := ev.URL }

/-- The Go-map lookup `stravaEventMap[id]`: the map is built by a loop
that overwrites, so the last event carrying the id wins. -/
def mapLookup (events : List Event) (i : Int) : Option Event :=
  events.foldl (fun acc e => if e.ID = i then some e else acc) none

/-- The `needsUpdate` computation of the scan loop: summary, start
instant, end instant, or whitespace-trimmed composed description
differs. -/
def needsUpdate (it : GCalItem) (ev : Event) (clubID syncTime : List Char) : Bool :=
  it.summary ≠ ev.Title
    ∨ it.start ≠ ev.Start
    ∨ it.end_ ≠ ev.End_
    ∨ trimSpace it.description ≠ trimSpace (composeDescription ev clubID syncTime)

/-- State threaded through the scan over the existing items: the
operations issued so far and the `processedStravaIDs` set. -/
structure ScanState where
  ops : List Op
  processed : List Int
  deriving DecidableEq, Inhabited

/-- One iteration of the loop over `existingEvents.Items`. -/
def scanStep (events : List Event) (clubID syncTime : List Char)
    (st : ScanState) (it : GCalItem) : ScanState :=
  match parseCorrelation it.iCalUID with
  | none => st
  | some sid =>
    match mapLookup events sid with
    | none => { st with ops := st.ops ++ [Op.delete it.id] }
    | some ev =>
      if needsUpdate it ev clubID syncTime then
        { ops := st.ops ++ [Op.update it.id (createGoogleCalendarEvent ev syncTime clubID)]
          processed := sid :: st.processed }
      else
        { st with processed := sid :: st.processed }

/-- `syncStravaEvents` as a pure operation-computing function: scan the
existing items accumulating deletes/updates and the processed-id set,
then create every desired event that was not marked processed. -/
def syncStravaEvents (events : List Event) (existing : List GCalItem)
    (clubID syncTime : List Char) : List Op :=
  let st := existing.foldl (scanStep events clubID syncTime) ⟨[], []⟩
  st.ops ++ (events.filter (fun ev => ! st.processed.contains ev.ID)).map
    (fun ev => Op.create (createGoogleCalendarEvent ev syncTime clubID))

/-! ### Declarative reference form of the reconciler

Modelled from the spec: the reference operation set of §4.2/§8 — one
delete per managed item with no desired counterpart, one full-record
update per managed item that differs, one create per desired event not
marked processed, nothing else. The refinement theorem below shows the
operational fold computes exactly this. -/

/-- The contribution of a single existing item to the scan phase. -/
def scanOpFor (events : List Event) (clubID syncTime : List Char)
    (it : GCalItem) : Option Op :=
  match parseCorrelation it.iCalUID with
  | none => none
  | some sid =>
    match mapLookup events sid with
    | none => some (Op.delete it.id)
    | some ev =>
      if needsUpdate it ev clubID syncTime then
        some (Op.update it.id (createGoogleCalendarEvent ev syncTime clubID))
      else none

/-- The processed-set contribution of a single existing item. -/
def processedContrib (events : List Event) (it : GCalItem) : Option Int :=
  match parseCorrelation it.iCalUID with
  | none => none
  | some sid =>
    match mapLookup events sid with
    | none => none
    | some _ => some sid

/-- All ids marked processed during the scan of `existing`. -/
def processedIds (events : List Event) (existing : List GCalItem) : List Int :=
  existing.filterMap (processedContrib events)

/-- The reference operation list. -/
def syncReference (events : List Event) (existing : List GCalItem)
    (clubID syncTime : List Char) : List Op :=
  existing.filterMap (scanOpFor events clubID syncTime)
    ++ (events.filter (fun ev => ! (processedIds events existing).contains ev.ID)).map
      (fun ev => Op.create (createGoogleCalendarEvent ev syncTime clubID))

/-! ### Applying operations to a calendar snapshot

Modelled from the spec: the external calendar's reaction to the three
mutations (`reconcile_apply`) — delete removes the item with the given
opaque id, update replaces the full record of that item keeping its
opaque id, insert appends a fresh item holding the record. -/

/-- Replace an item's record (an `Events.Update` whole-record patch). -/
def applyRecord (it : GCalItem) (rec : CalRecord) : GCalItem :=
  { id := it.id
    iCalUID := rec.iCalUID
    summary := rec.summary
    start := rec.start
    end_ := rec.end_
    description := rec.description }

/-- The item an `Events.Insert` of `rec` materialises, with a fresh
opaque id `n`. -/
def newItem (n : Nat) (rec : CalRecord) : GCalItem :=
  { id := n
    iCalUID := rec.iCalUID
    summary := rec.summary
    start := rec.start
    end_ := rec.end_
    description := rec.description }

/-- Apply one operation to a snapshot; `fresh` is the next unused opaque
id. -/
def applyOp (p : List GCalItem × Nat) (op : Op) : List GCalItem × Nat :=
  match op with
  | Op.delete i => (p.1.filter (fun it => it.id ≠ i), p.2)
  | Op.update i rec => (p.1.map (fun it => if it.id = i then applyRecord it rec else it), p.2)
  | Op.create rec => (p.1 ++ [newItem p.2 rec], p.2 + 1)

/-- The first opaque id not used by the snapshot. -/
def freshStart (items : List GCalItem) : Nat :=
  (items.map (fun it => it.id)).foldr max 0 + 1

/-- Apply an operation list in order, starting from a fresh-id counter. -/
def applyOpsFrom (p : List GCalItem × Nat) (ops : List Op) : List GCalItem × Nat :=
  ops.foldl applyOp p

/-- The calendar state after one reconciler run's operations. -/
def applyOps (items : List GCalItem) (ops : List Op) : List GCalItem :=
  (applyOpsFrom (items, freshStart items) ops).1

/-! ### Map-lookup lemmas -/

theorem mapLookup_append_singleton (es : List Event) (e : Event) (i : Int) :
    mapLookup (es ++ [e]) i = if e.ID = i then some e else mapLookup es i := by
  simp [mapLookup, List.foldl_append]

theorem mapLookup_mem {events : List Event} {i : Int} {ev : Event}
    (h : mapLookup events i = some ev) : ev ∈ events ∧ ev.ID = i := by
  induction events using List.reverseRecOn with
  | nil => simp [mapLookup] at h
  | append_singleton es e ih =>
    rw [mapLookup_append_singleton] at h
    by_cases he : e.ID = i
    · rw [if_pos he] at h
      obtain rfl : e = ev := by injection h
      exact ⟨by simp, he⟩
    · rw [if_neg he] at h
      obtain ⟨h1, h2⟩ := ih h
      exact ⟨by simp [h1], h2⟩

theorem mapLookup_isSome_of_mem {events : List Event} {ev : Event}
    (h : ev ∈ events) : ∃ e, mapLookup events ev.ID = some e := by
  induction events using List.reverseRecOn with
  | nil => simp at h
  | append_singleton es e ih =>
    rw [mapLookup_append_singleton]
    by_cases he : e.ID = ev.ID
    · exact ⟨e, by rw [if_pos he]⟩
    · rw [if_neg he]
      rcases List.mem_append.mp h with h1 | h1
      · exact ih h1
      · simp only [List.mem_singleton] at h1
        subst h1
        exact absurd rfl he

theorem mapLookup_self_of_nodup {events : List Event} {ev : Event}
    (hnd : (events.map Event.ID).Nodup) (h : ev ∈ events) :
    mapLookup events ev.ID = some ev := by
  induction events using List.reverseRecOn with
  | nil => simp at h
  | append_singleton es e ih =>
    rw [mapLookup_append_singleton]
    have hnd' : (es.map Event.ID).Nodup := by
      rw [List.map_append] at hnd
      exact (List.nodup_append.mp hnd).1
    have hnotin : e.ID ∉ es.map Event.ID := by
      rw [List.map_append] at hnd
      have := (List.nodup_append.mp hnd).2.2
      intro hcon
      exact this hcon (by simp)
    rcases List.mem_append.mp h with h1 | h1
    · have hne : e.ID ≠ ev.ID := by
        intro hcon
        exact hnotin (hcon ▸ List.mem_map_of_mem Event.ID h1)
      rw [if_neg hne]
      exact ih hnd' h1
    · simp only [List.mem_singleton] at h1
      subst h1
      rw [if_pos rfl]

/-! ### The operational fold computes the reference form -/

theorem foldl_scanStep (events : List Event) (clubID syncTime : List Char)
    (l : List GCalItem) :
    ∀ (ops0 : List Op) (p0 : List Int),
      l.foldl (scanStep events clubID syncTime) ⟨ops0, p0⟩
        = ⟨ops0 ++ l.filterMap (scanOpFor events clubID syncTime),
           (l.filterMap (processedContrib events)).reverse ++ p0⟩ := by
  induction l with
  | nil => intro ops0 p0; simp
  | cons it rest ih =>
    intro ops0 p0
    simp only [List.foldl_cons, List.filterMap_cons]
    cases hp : parseCorrelation it.iCalUID with
    | none =>
      simp only [scanStep, scanOpFor, processedContrib, hp]
      exact ih ops0 p0
    | some sid =>
      cases hm : mapLookup events sid with
      | none =>
        simp only [scanStep, scanOpFor, processedContrib, hp, hm]
        rw [ih]
        simp
      | some ev =>
        by_cases hu : needsUpdate it ev clubID syncTime
        · simp only [scanStep, scanOpFor, processedContrib, hp, hm, hu, if_pos]
          rw [ih]
          simp
        · simp only [scanStep, scanOpFor, processedContrib, hp, hm, hu, if_neg]
          rw [ih]
          simp

theorem contains_reverse (l : List Int) (x : Int) :
    l.reverse.contains x = l.contains x := by
  simp [List.contains, List.elem_eq_mem, List.mem_reverse]

/-- Shared refinement lemma: the reconciler's fold computes exactly the
declarative reference operation list. -/
theorem sync_eq_reference (events : List Event) (existing : List GCalItem)
    (clubID syncTime : List Char) :
    syncStravaEvents events existing clubID syncTime
      = syncReference events existing clubID syncTime := by
  unfold syncStravaEvents syncReference
  rw [foldl_scanStep]
  simp only [List.nil_append, List.append_nil]
  congr 1
  apply congrArg
  apply List.filter_congr
  intro ev _
  rw [contains_reverse]
  rfl

/-! ### Pointwise characterisation of applying delete/update operations -/

/-- The opaque item id an operation addresses (`none` for an insert). -/
def opTarget : Op → Option Nat
  | Op.delete i => some i
  | Op.update i _ => some i
  | Op.create _ => none

/-- Whether an operation is an insert. -/
def isCreate : Op → Bool
  | Op.create _ => true
  | _ => false

/-- The effect of one delete/update on one item (inserts touch no
existing item). -/
def opItemStep (op : Op) (it : GCalItem) : Option GCalItem :=
  match op with
  | Op.delete i => if it.id = i then none else some it
  | Op.update i rec => if it.id = i then some (applyRecord it rec) else some it
  | Op.create _ => some it

/-- Cumulative effect of an operation list on a single item. -/
def itemApply : List Op → GCalItem → Option GCalItem
  | [], it => some it
  | op :: ops, it =>
    match opItemStep op it with
    | none => none
    | some it' => itemApply ops it'

theorem itemApply_append (a b : List Op) (it : GCalItem) :
    itemApply (a ++ b) it
      = match itemApply a it with
        | none => none
        | some x => itemApply b x := by
  induction a generalizing it with
  | nil => simp [itemApply]
  | cons op ops ih =>
    simp only [List.cons_append, itemApply]
    cases opItemStep op it with
    | none => rfl
    | some it' => exact ih it'

theorem itemApply_neutral {ops : List Op} {it : GCalItem}
    (h : ∀ op ∈ ops, opTarget op ≠ some it.id) : itemApply ops it = some it := by
  induction ops with
  | nil => rfl
  | cons op rest ih =>
    have hop := h op (by simp)
    have hstep : opItemStep op it = some it := by
      cases op with
      | delete i =>
        have : it.id ≠ i := fun hc => hop (by simp [opTarget, hc])
        simp [opItemStep, this]
      | update i rec =>
        have : it.id ≠ i := fun hc => hop (by simp [opTarget, hc])
        simp [opItemStep, this]
      | create rec => rfl
    simp only [itemApply, hstep]
    exact ih (fun o ho => h o (by simp [ho]))

theorem applyOpsFrom_nonCreate (ops : List Op) (h : ∀ op ∈ ops, isCreate op = false) :
    ∀ (items : List GCalItem) (f : Nat),
      applyOpsFrom (items, f) ops = (items.filterMap (itemApply ops), f) := by
  induction ops with
  | nil => intro items f; simp [applyOpsFrom, itemApply]
  | cons op rest ih =>
    intro items f
    have hstep1 : applyOp (items, f) op = (items.filterMap (opItemStep op), f) := by
      cases op with
      | delete i =>
        simp only [applyOp]
        congr 1
        rw [← List.filterMap_eq_filter]
        apply List.filterMap_congr
        intro it _
        by_cases hid : it.id = i
        · simp [opItemStep, hid, Option.guard]
        · simp [opItemStep, hid, Option.guard]
      | update i rec =>
        simp only [applyOp]
        congr 1
        rw [← List.filterMap_eq_map]
        apply List.filterMap_congr
        intro it _
        by_cases hid : it.id = i
        · simp [opItemStep, hid]
        · simp [opItemStep, hid]
      | create rec => exact absurd (h (Op.create rec) (by simp)) (by simp [isCreate])
    have hrest : ∀ op' ∈ rest, isCreate op' = false := fun o ho => h o (by simp [ho])
    calc applyOpsFrom (items, f) (op :: rest)
        = applyOpsFrom (applyOp (items, f) op) rest := by simp [applyOpsFrom]
      _ = applyOpsFrom (items.filterMap (opItemStep op), f) rest := by rw [hstep1]
      _ = ((items.filterMap (opItemStep op)).filterMap (itemApply rest), f) := ih hrest _ _
      _ = (items.filterMap (itemApply (op :: rest)), f) := by
          rw [List.filterMap_filterMap]
          congr 1
          apply List.filterMap_congr
          intro it _
          simp only [itemApply]
          cases opItemStep op it <;> simp

/-- The items materialised by a run of inserts starting at fresh id `f`. -/
def mkItems : Nat → List Op → List GCalItem
  | _, [] => []
  | f, Op.create rec :: ops => newItem f rec :: mkItems (f + 1) ops
  | f, Op.delete _ :: ops => mkItems f ops
  | f, Op.update _ _ :: ops => mkItems f ops

theorem applyOpsFrom_creates (ops : List Op) (h : ∀ op ∈ ops, isCreate op = true) :
    ∀ (items : List GCalItem) (f : Nat),
      ∃ f', applyOpsFrom (items, f) ops = (items ++ mkItems f ops, f') := by
  induction ops with
  | nil => intro items f; exact ⟨f, by simp [applyOpsFrom, mkItems]⟩
  | cons op rest ih =>
    intro items f
    cases op with
    | delete i => exact absurd (h (Op.delete i) (by simp)) (by simp [isCreate])
    | update i rec => exact absurd (h (Op.update i rec) (by simp)) (by simp [isCreate])
    | create rec =>
      obtain ⟨f', hf'⟩ := ih (fun o ho => h o (by simp [ho])) (items ++ [newItem f rec]) (f + 1)
      refine ⟨f', ?_⟩
      calc applyOpsFrom (items, f) (Op.create rec :: rest)
          = applyOpsFrom (items ++ [newItem f rec], f + 1) rest := by
            simp [applyOpsFrom, applyOp]
        _ = (items ++ [newItem f rec] ++ mkItems (f + 1) rest, f') := hf'
        _ = (items ++ mkItems f (Op.create rec :: rest), f') := by
            simp [mkItems, List.append_assoc]

theorem applyOpsFrom_append (p : List GCalItem × Nat) (a b : List Op) :
    applyOpsFrom p (a ++ b) = applyOpsFrom (applyOpsFrom p a) b := by
  simp [applyOpsFrom, List.foldl_append]

theorem mem_mkItems {x : GCalItem} :
    ∀ {f : Nat} {ops : List Op}, x ∈ mkItems f ops →
      ∃ n rec, Op.create rec ∈ ops ∧ x = newItem n rec := by
  intro f ops
  induction ops generalizing f with
  | nil => intro h; simp [mkItems] at h
  | cons op rest ih =>
    intro h
    cases op with
    | delete i =>
      obtain ⟨n, rec, h1, h2⟩ := ih (f := f) h
      exact ⟨n, rec, by simp [h1], h2⟩
    | update i rec =>
      obtain ⟨n, r, h1, h2⟩ := ih (f := f) h
      exact ⟨n, r, by simp [h1], h2⟩
    | create rec =>
      simp only [mkItems, List.mem_cons] at h
      rcases h with h | h
      · exact ⟨f, rec, by simp, h⟩
      · obtain ⟨n, r, h1, h2⟩ := ih h
        exact ⟨n, r, by simp [h1], h2⟩

theorem create_mem_mkItems {rec : CalRecord} :
    ∀ {f : Nat} {ops : List Op}, Op.create rec ∈ ops →
      ∃ n, newItem n rec ∈ mkItems f ops := by
  intro f ops
  induction ops generalizing f with
  | nil => intro hmem; simp at hmem
  | cons op rest ih =>
    intro hmem
    rcases List.mem_cons.mp hmem with heq | htl
    · rw [← heq]
      exact ⟨f, by simp [mkItems]⟩
    · cases op with
      | delete i => exact ih (f := f) htl
      | update i r => exact ih (f := f) htl
      | create r =>
        obtain ⟨n, hn⟩ := ih (f := f + 1) htl
        exact ⟨n, by simp [mkItems, hn]⟩

/-! ### The snapshot a reconciler run leaves behind -/

/-- What becomes of one pre-existing item after the scan phase's
deletes/updates: unmanaged and unchanged items survive as they are,
differing managed items survive with the freshly composed record,
orphaned managed items disappear. -/
def keepResult (events : List Event) (clubID syncTime : List Char)
    (it : GCalItem) : Option GCalItem :=
  match parseCorrelation it.iCalUID with
  | none => some it
  | some sid =>
    match mapLookup events sid with
    | none => none
    | some ev =>
      if needsUpdate it ev clubID syncTime then
        some (applyRecord it (createGoogleCalendarEvent ev syncTime clubID))
      else some it

theorem applyRecord_id (it : GCalItem) (rec : CalRecord) :
    (applyRecord it rec).id = it.id := rfl

theorem scanOpFor_some {events : List Event} {c s : List Char} {it : GCalItem}
    {op : Op} (h : scanOpFor events c s it = some op) :
    op = Op.delete it.id ∨ ∃ rec, op = Op.update it.id rec := by
  cases hp : parseCorrelation it.iCalUID with
  | none => simp [scanOpFor, hp] at h
  | some sid =>
    cases hm : mapLookup events sid with
    | none =>
      simp only [scanOpFor, hp, hm] at h
      exact Or.inl (Option.some.inj h).symm
    | some ev =>
      by_cases hu : needsUpdate it ev c s
      · simp only [scanOpFor, hp, hm, hu, if_true] at h
        exact Or.inr ⟨_, (Option.some.inj h).symm⟩
      · simp [scanOpFor, hp, hm, hu] at h

theorem mem_filterMap_scanOpFor {events : List Event} {c s : List Char}
    {l : List GCalItem} {op : Op} (h : op ∈ l.filterMap (scanOpFor events c s)) :
    isCreate op = false ∧ ∃ x ∈ l, opTarget op = some x.id := by
  obtain ⟨x, hx, hop⟩ := List.mem_filterMap.mp h
  rcases scanOpFor_some hop with h1 | ⟨rec, h1⟩ <;> subst h1
  · exact ⟨rfl, x, hx, rfl⟩
  · exact ⟨rfl, x, hx, rfl⟩

theorem applyScan_keepResult (events : List Event) (c s : List Char)
    (existing : List GCalItem) (hnd : (existing.map GCalItem.id).Nodup) (f : Nat) :
    applyOpsFrom (existing, f) (existing.filterMap (scanOpFor events c s))
      = (existing.filterMap (keepResult events c s), f) := by
  rw [applyOpsFrom_nonCreate _
    (fun op hop => (mem_filterMap_scanOpFor hop).1)]
  congr 1
  apply List.filterMap_congr
  intro it hit
  obtain ⟨l1, l2, hl⟩ := List.append_of_mem hit
  subst hl
  have hmap : ((l1 ++ it :: l2).map GCalItem.id).Nodup := hnd
  rw [List.map_append, List.map_cons, List.nodup_append] at hmap
  have hne1 : ∀ x ∈ l1, x.id ≠ it.id := by
    intro x hx hc
    exact hmap.2.2 (List.mem_map_of_mem GCalItem.id hx) (by simp [hc])
  have hne2 : ∀ x ∈ l2, x.id ≠ it.id := by
    intro x hx hc
    have := (List.nodup_cons.mp hmap.2.1).1
    exact this (by rw [← hc]; exact List.mem_map_of_mem GCalItem.id hx)
  have hA : ∀ (y : GCalItem), y.id = it.id →
      itemApply (l1.filterMap (scanOpFor events c s)) y = some y := by
    intro y hy
    apply itemApply_neutral
    intro op hop
    obtain ⟨x, hx, htg⟩ := (mem_filterMap_scanOpFor hop).2
    rw [htg, hy]
    intro hc
    exact hne1 x hx (Option.some.inj hc)
  have hB : ∀ (y : GCalItem), y.id = it.id →
      itemApply (l2.filterMap (scanOpFor events c s)) y = some y := by
    intro y hy
    apply itemApply_neutral
    intro op hop
    obtain ⟨x, hx, htg⟩ := (mem_filterMap_scanOpFor hop).2
    rw [htg, hy]
    intro hc
    exact hne2 x hx (Option.some.inj hc)
  cases hp : parseCorrelation it.iCalUID with
  | none =>
    have hops : (l1 ++ it :: l2).filterMap (scanOpFor events c s)
        = l1.filterMap (scanOpFor events c s) ++ l2.filterMap (scanOpFor events c s) := by
      simp [List.filterMap_append, List.filterMap_cons, scanOpFor, hp]
    rw [hops, itemApply_append, hA it rfl]
    simp only [keepResult, hp]
    exact hB it rfl
  | some sid =>
    cases hm : mapLookup events sid with
    | none =>
      have hops : (l1 ++ it :: l2).filterMap (scanOpFor events c s)
          = l1.filterMap (scanOpFor events c s)
            ++ Op.delete it.id :: l2.filterMap (scanOpFor events c s) := by
        simp [List.filterMap_append, List.filterMap_cons, scanOpFor, hp, hm]
      rw [hops, itemApply_append, hA it rfl]
      simp [itemApply, opItemStep, keepResult, hp, hm]
    | some ev =>
      by_cases hu : needsUpdate it ev c s
      · have hops : (l1 ++ it :: l2).filterMap (scanOpFor events c s)
            = l1.filterMap (scanOpFor events c s)
              ++ Op.update it.id (createGoogleCalendarEvent ev s c)
                :: l2.filterMap (scanOpFor events c s) := by
          simp [List.filterMap_append, List.filterMap_cons, scanOpFor, hp, hm, hu]
        rw [hops, itemApply_append, hA it rfl]
        simp only [itemApply, opItemStep, if_true, eq_self_iff_true, ite_true]
        rw [hB _ (applyRecord_id it _)]
        simp [keepResult, hp, hm, hu]
      · have hops : (l1 ++ it :: l2).filterMap (scanOpFor events c s)
            = l1.filterMap (scanOpFor events c s) ++ l2.filterMap (scanOpFor events c s) := by
          simp [List.filterMap_append, List.filterMap_cons, scanOpFor, hp, hm, hu]
        rw [hops, itemApply_append, hA it rfl]
        simp only [keepResult, hp, hm, hu, if_false, Bool.false_eq_true, ite_false]
        exact hB it rfl

/-- The operation list a run issues for the create phase. -/
def createOps (events : List Event) (existing : List GCalItem)
    (clubID syncTime : List Char) : List Op :=
  (events.filter (fun ev => ! (processedIds events existing).contains ev.ID)).map
    (fun ev => Op.create (createGoogleCalendarEvent ev syncTime clubID))

/-- After one run, the calendar holds every surviving pre-existing item
(as `keepResult` describes) followed by the freshly inserted ones. -/
theorem applyOps_sync (events : List Event) (existing : List GCalItem)
    (c s : List Char) (hnd : (existing.map GCalItem.id).Nodup) :
    applyOps existing (syncStravaEvents events existing c s)
      = existing.filterMap (keepResult events c s)
        ++ mkItems (freshStart existing) (createOps events existing c s) := by
  rw [sync_eq_reference]
  unfold applyOps syncReference
  rw [applyOpsFrom_append, applyScan_keepResult events c s existing hnd]
  obtain ⟨f', hf'⟩ := applyOpsFrom_creates
    ((events.filter (fun ev => ! (processedIds events existing).contains ev.ID)).map
      (fun ev => Op.create (createGoogleCalendarEvent ev s c)))
    (by
      intro op hop
      obtain ⟨ev, _, hev⟩ := List.mem_map.mp hop
      rw [← hev]
      rfl)
    (existing.filterMap (keepResult events c s)) (freshStart existing)
  rw [hf']
  rfl

/-! ### Second-run behaviour of surviving and created items -/

theorem scanOpFor_of_record_fields (events : List Event) (c s : List Char)
    {x : GCalItem} {ev : Event}
    (hev : mapLookup events ev.ID = some ev)
    (hnz : ev.ID ≠ 0) (hlo : -(2 ^ 63) ≤ ev.ID) (hhi : ev.ID < 2 ^ 63)
    (huid : x.iCalUID = formatCorrelation ev.ID)
    (hsum : x.summary = ev.Title) (hst : x.start = ev.Start)
    (hend : x.end_ = ev.End_)
    (hdesc : x.description = composeDescription ev c s) :
    scanOpFor events c s x = none ∧ processedContrib events x = some ev.ID := by
  have hparse : parseCorrelation x.iCalUID = some ev.ID := by
    rw [huid]; exact parse_format_correlation hnz hlo hhi
  have hu : needsUpdate x ev c s = false := by
    simp [needsUpdate, hsum, hst, hend, hdesc]
  constructor
  · simp [scanOpFor, hparse, hev, hu]
  · simp [processedContrib, hparse, hev]

/-- `createGoogleCalendarEvent`'s record, written back onto an item,
reproduces the compared fields (direct field computations). -/
theorem applyRecord_fields (it : GCalItem) (ev : Event) (c s : List Char) :
    (applyRecord it (createGoogleCalendarEvent ev s c)).iCalUID = formatCorrelation ev.ID
    ∧ (applyRecord it (createGoogleCalendarEvent ev s c)).summary = ev.Title
    ∧ (applyRecord it (createGoogleCalendarEvent ev s c)).start = ev.Start
    ∧ (applyRecord it (createGoogleCalendarEvent ev s c)).end_ = ev.End_
    ∧ (applyRecord it (createGoogleCalendarEvent ev s c)).description
        = composeDescription ev c s :=
  ⟨rfl, rfl, rfl, rfl, rfl⟩

theorem newItem_fields (n : Nat) (ev : Event) (c s : List Char) :
    (newItem n (createGoogleCalendarEvent ev s c)).iCalUID = formatCorrelation ev.ID
    ∧ (newItem n (createGoogleCalendarEvent ev s c)).summary = ev.Title
    ∧ (newItem n (createGoogleCalendarEvent ev s c)).start = ev.Start
    ∧ (newItem n (createGoogleCalendarEvent ev s c)).end_ = ev.End_
    ∧ (newItem n (createGoogleCalendarEvent ev s c)).description
        = composeDescription ev c s :=
  ⟨rfl, rfl, rfl, rfl, rfl⟩

theorem keepResult_second (events : List Event) (c s : List Char)
    (hr : ∀ ev ∈ events, ev.ID ≠ 0 ∧ -(2 ^ 63) ≤ ev.ID ∧ ev.ID < 2 ^ 63)
    {it0 it' : GCalItem} (h : keepResult events c s it0 = some it') :
    scanOpFor events c s it' = none
    ∧ processedContrib events it' = processedContrib events it0 := by
  cases hp : parseCorrelation it0.iCalUID with
  | none =>
    have hit : it' = it0 := by
      simp only [keepResult, hp] at h
      exact (Option.some.inj h).symm
    subst hit
    exact ⟨by simp [scanOpFor, hp], rfl⟩
  | some sid =>
    cases hm : mapLookup events sid with
    | none => simp [keepResult, hp, hm] at h
    | some ev =>
      obtain ⟨hevmem, hevid⟩ := mapLookup_mem hm
      have hlk : mapLookup events ev.ID = some ev := by rw [hevid]; exact hm
      obtain ⟨hnz, hlo, hhi⟩ := hr ev hevmem
      by_cases hu : needsUpdate it0 ev c s
      · have hit : it' = applyRecord it0 (createGoogleCalendarEvent ev s c) := by
          simp only [keepResult, hp, hm, hu, if_true] at h
          exact (Option.some.inj h).symm
        subst hit
        obtain ⟨f1, f2, f3, f4, f5⟩ := applyRecord_fields it0 ev c s
        have := scanOpFor_of_record_fields events c s hlk hnz hlo hhi f1 f2 f3 f4 f5
        refine ⟨this.1, ?_⟩
        rw [this.2, hevid]
        simp [processedContrib, hp, hm]
      · have hit : it' = it0 := by
          simp only [keepResult, hp, hm, hu, if_false] at h
          exact (Option.some.inj h).symm
        subst hit
        exact ⟨by simp [scanOpFor, hp, hm, hu], rfl⟩

theorem mkItem_second (events : List Event) (existing : List GCalItem)
    (c s : List Char)
    (hnd : (events.map Event.ID).Nodup)
    (hr : ∀ ev ∈ events, ev.ID ≠ 0 ∧ -(2 ^ 63) ≤ ev.ID ∧ ev.ID < 2 ^ 63)
    {x : GCalItem} (hx : x ∈ mkItems (freshStart existing) (createOps events existing c s)) :
    scanOpFor events c s x = none
    ∧ ∃ ev ∈ events, processedContrib events x = some ev.ID := by
  obtain ⟨n, rec, hrec, hxeq⟩ := mem_mkItems hx
  obtain ⟨evc, hevc, heq⟩ := List.mem_map.mp hrec
  have hrec' : rec = createGoogleCalendarEvent evc s c := by
    injection heq.symm
  subst hrec'
  subst hxeq
  have hevmem : evc ∈ events := (List.mem_filter.mp hevc).1
  obtain ⟨hnz, hlo, hhi⟩ := hr evc hevmem
  have hlk : mapLookup events evc.ID = some evc := mapLookup_self_of_nodup hnd hevmem
  obtain ⟨f1, f2, f3, f4, f5⟩ := newItem_fields n evc c s
  have := scanOpFor_of_record_fields events c s hlk hnz hlo hhi f1 f2 f3 f4 f5
  exact ⟨this.1, evc, hevmem, this.2⟩

/-- Core idempotence result: a second run over the state the first run
produced issues no operation at all (on a batch of pairwise-distinct,
nonzero, 64-bit event ids and a snapshot with distinct opaque ids). -/
theorem sync_idempotent_aux (events : List Event) (existing : List GCalItem)
    (c s : List Char)
    (hev_nd : (events.map Event.ID).Nodup)
    (hr : ∀ ev ∈ events, ev.ID ≠ 0 ∧ -(2 ^ 63) ≤ ev.ID ∧ ev.ID < 2 ^ 63)
    (hit_nd : (existing.map GCalItem.id).Nodup) :
    syncStravaEvents events
      (applyOps existing (syncStravaEvents events existing c s)) c s = [] := by
  rw [sync_eq_reference, applyOps_sync events existing c s hit_nd]
  set E' := existing.filterMap (keepResult events c s)
    ++ mkItems (freshStart existing) (createOps events existing c s) with hE'
  have hmem : ∀ x ∈ E', scanOpFor events c s x = none
      ∧ ((∃ it0 ∈ existing, processedContrib events x = processedContrib events it0)
          ∨ ∃ ev ∈ events, processedContrib events x = some ev.ID) := by
    intro x hx
    rcases List.mem_append.mp hx with hx1 | hx2
    · obtain ⟨it0, hit0, hk⟩ := List.mem_filterMap.mp hx1
      have := keepResult_second events c s hr hk
      exact ⟨this.1, Or.inl ⟨it0, hit0, this.2⟩⟩
    · have := mkItem_second events existing c s hev_nd hr hx2
      exact ⟨this.1, Or.inr this.2⟩
  have hscan : E'.filterMap (scanOpFor events c s) = [] :=
    List.filterMap_eq_nil.mpr (fun x hx => (hmem x hx).1)
  have hproc : ∀ ev ∈ events, ev.ID ∈ processedIds events E' := by
    intro ev hev
    cases hc : (processedIds events existing).contains ev.ID with
    | true =>
      have hmemp : ev.ID ∈ processedIds events existing := by
        simpa [List.contains, List.elem_eq_mem] using hc
      obtain ⟨it0, hit0, hcontrib⟩ := List.mem_filterMap.mp hmemp
      have hkeep : ∃ it', keepResult events c s it0 = some it' := by
        cases hp : parseCorrelation it0.iCalUID with
        | none => exact ⟨it0, by simp [keepResult, hp]⟩
        | some sid =>
          cases hm : mapLookup events sid with
          | none => simp [processedContrib, hp, hm] at hcontrib
          | some ev1 =>
            by_cases hu : needsUpdate it0 ev1 c s
            · exact ⟨applyRecord it0 (createGoogleCalendarEvent ev1 s c),
                by simp [keepResult, hp, hm, hu]⟩
            · exact ⟨it0, by simp [keepResult, hp, hm, hu]⟩
      obtain ⟨it', hk⟩ := hkeep
      have hsecond := keepResult_second events c s hr hk
      apply List.mem_filterMap.mpr
      refine ⟨it', List.mem_append.mpr (Or.inl (List.mem_filterMap.mpr ⟨it0, hit0, hk⟩)), ?_⟩
      rw [hsecond.2, hcontrib]
    | false =>
      have hnotin : ev.ID ∉ processedIds events existing := by
        simpa [List.contains, List.elem_eq_mem] using hc
      have hfil : ev ∈ events.filter
          (fun e => ! (processedIds events existing).contains e.ID) :=
        List.mem_filter.mpr ⟨hev, by simp [List.contains, List.elem_eq_mem, hnotin]⟩
      have hop : Op.create (createGoogleCalendarEvent ev s c)
          ∈ createOps events existing c s :=
        List.mem_map.mpr ⟨ev, hfil, rfl⟩
      obtain ⟨n, hn⟩ := create_mem_mkItems (f := freshStart existing) hop
      obtain ⟨hnz, hlo, hhi⟩ := hr ev hev
      have hlk : mapLookup events ev.ID = some ev := mapLookup_self_of_nodup hev_nd hev
      obtain ⟨f1, f2, f3, f4, f5⟩ := newItem_fields n ev c s
      have := scanOpFor_of_record_fields events c s hlk hnz hlo hhi f1 f2 f3 f4 f5
      exact List.mem_filterMap.mpr
        ⟨newItem n (createGoogleCalendarEvent ev s c),
          List.mem_append.mpr (Or.inr hn), this.2⟩
  have hfilter : events.filter (fun ev => ! (processedIds events E').contains ev.ID) = [] := by
    apply List.filter_eq_nil.mpr
    intro ev hev
    have := hproc ev hev
    simp [List.contains, List.elem_eq_mem, this]
  unfold syncReference
  rw [hscan, hfilter]
  simp

/-! ## Event construction (`convertStravaEvent`, `main` loop) -/

/-- Numeric value of a digit character. -/
def charVal (c : Char) : Nat := c.toNat - 48

/-- Gregorian leap-year rule (as Go's `time` package applies it). -/
def isLeapYear (y : Nat) : Bool := (y % 4 == 0 && y % 100 != 0) || y % 400 == 0

/-- Cumulative days before month `m` in a non-leap year. -/
def daysBeforeMonth (m : Nat) : Nat :=
  match m with
  | 1 => 0 | 2 => 31 | 3 => 59 | 4 => 90 | 5 => 120 | 6 => 151
  | 7 => 181 | 8 => 212 | 9 => 243 | 10 => 273 | 11 => 304 | 12 => 334
  | _ => 0

/-- Length of month `m` of year `y` (the day-range check Go's
`time.Parse` performs). -/
def daysInMonth (y m : Nat) : Nat :=
  match m with
  | 1 => 31 | 2 => if isLeapYear y then 29 else 28 | 3 => 31 | 4 => 30
  | 5 => 31 | 6 => 30 | 7 => 31 | 8 => 31 | 9 => 30 | 10 => 31
  | 11 => 30 | 12 => 31
  | _ => 0

/-- Days from the proleptic-Gregorian epoch `0000-01-01` to `y-m-d`. -/
def daysFromCivil (y m d : Nat) : Nat :=
  365 * y + ((y + 3) / 4 - (y + 99) / 100 + (y + 399) / 400)
    + daysBeforeMonth m + (if 2 < m ∧ isLeapYear y then 1 else 0) + (d - 1)

/-- `getnum` with `fixed = true` (the zero-padded layout tokens `01`,
`02`, `04`, `05`): exactly two digit characters. -/
def parse2 (s : List Char) : Option (Nat × List Char) :=
  match s with
  | a :: b :: rest =>
    if a.isDigit ∧ b.isDigit then some (10 * charVal a + charVal b, rest) else none
  | _ => none

/-- `getnum` with `fixed = false` (the layout's `15` hour token): one
digit, or two when a second digit immediately follows. -/
def parseHourNum (s : List Char) : Option (Nat × List Char) :=
  match s with
  | [] => none
  | [a] => if a.isDigit then some (charVal a, []) else none
  | a :: b :: rest =>
    if a.isDigit then
      if b.isDigit then some (10 * charVal a + charVal b, rest)
      else some (charVal a, b :: rest)
    else none

/-- After the seconds field, `time.Parse` consumes an optional
fractional second — a comma or period followed by at least one digit —
even when the layout carries none. -/
def dropFraction (s : List Char) : List Char :=
  match s with
  | c :: d :: rest =>
    if (c = '.' ∨ c = ',') ∧ d.isDigit then rest.dropWhile Char.isDigit
    else c :: d :: rest
  | s => s

/-- `time.Parse("2006-01-02T15:04:05Z", s)`: four year digits, the
literal separators, a fixed two-digit month/day/minute/second, a
non-fixed one- or two-digit hour, an optional fractional second after
the seconds field, a literal trailing `Z`, full input consumption, and
Go's range validation — mapped to the instant in seconds. `none` is
Go's parse error. -/
def parseStravaTime (s : List Char) : Option Int :=
  match s with
  | y1 :: y2 :: y3 :: y4 :: '-' :: rest1 =>
    if y1.isDigit ∧ y2.isDigit ∧ y3.isDigit ∧ y4.isDigit then
      match parse2 rest1 with
      | none => none
      | some (mo, rest2) =>
        match rest2 with
        | '-' :: rest3 =>
          match parse2 rest3 with
          | none => none
          | some (da, rest4) =>
            match rest4 with
            | 'T' :: rest5 =>
              match parseHourNum rest5 with
              | none => none
              | some (hh, rest6) =>
                match rest6 with
                | ':' :: rest7 =>
                  match parse2 rest7 with
                  | none => none
                  | some (mi, rest8) =>
                    match rest8 with
                    | ':' :: rest9 =>
                      match parse2 rest9 with
                      | none => none
                      | some (ss, rest10) =>
                        match dropFraction rest10 with
                        | ['Z'] =>
                          let y := 1000 * charVal y1 + 100 * charVal y2
                            + 10 * charVal y3 + charVal y4
                          if 1 ≤ mo ∧ mo ≤ 12 ∧ 1 ≤ da ∧ da ≤ daysInMonth y mo
                              ∧ hh ≤ 23 ∧ mi ≤ 59 ∧ ss ≤ 59 then
                            some ((daysFromCivil y mo da : Int) * 86400
                              + (hh : Int) * 3600 + (mi : Int) * 60 + (ss : Int))
                          else none
                        | _ => none
                    | _ => none
                | _ => none
            | _ => none
        | _ => none
    else none
  | _ => none

/-- The event URL `fmt.Sprintf("https://www.strava.com/clubs/%s/group_events/%d", clubID, se.ID)`. -/
def stravaEventURL (clubID : List Char) (id : Int) : List Char :=
  "https://www.strava.com/clubs/".toList ++ clubID
    ++ "/group_events/".toList ++ intToChars id

/-- The per-event conversion failures of `convertStravaEvent`. -/
inductive ConvErr where
  | noOccurrence
  | timeParseError
  deriving DecidableEq, Inhabited

/-- `convertStravaEvent`: requires a first upcoming occurrence, parses
it, synthesises the end instant one hour after the start, and assembles
the canonical event. The phone-number redaction collaborator (excluded
from the core) is passed in as `redact`; the club id (environment
configuration) as `clubID`. -/
def convertStravaEvent (redact : List Char → List Char) (clubID : List Char)
    (se : StravaEvent) : Except ConvErr Event :=
  match se.UpcomingOccurrences with
  | [] => Except.error ConvErr.noOccurrence
  | t :: _ =>
    match parseStravaTime t with
    | none => Except.error ConvErr.timeParseError
    | some startTime =>
      Except.ok
        { ID := se.ID
          Title := se.Title
          Start := startTime
          End_ := startTime + 3600
          Description := redact se.Description
          URL := stravaEventURL clubID se.ID
          Location := se.Address
          Organizer := trimSpace (se.OrganizingFirstName ++ ' ' :: se.OrganizingLastName)
          SkillLevels := se.SkillLevels
          Terrain := se.Terrain }

/-- The `main` conversion loop: a failed conversion is logged and
skipped, the batch continues. -/
def convertAll (redact : List Char → List Char) (clubID : List Char) :
    List StravaEvent → List Event
  | [] => []
  | se :: rest =>
    match convertStravaEvent redact clubID se with
    | Except.error _ => convertAll redact clubID rest
    | Except.ok ev => ev :: convertAll redact clubID rest

/-! ## Time-window filters and cache loading (`main.go`) -/

/-- `filterEvents`: keep events starting after `now.AddDate(0, 0, -7)`
(strictly, via `Time.After`). -/
def filterEvents (events : List Event) (now : Int) : List Event :=
  events.filter (fun ev => now - 7 * 86400 < ev.Start)

/-- The sync/export horizon filter of `main`/`generateICSFromCache`/
`syncGoogleCalendarOnly`: `event.Start.After(now) &&
event.Start.Before(now.AddDate(0, 0, 60))`. -/
def filterNext60Days (events : List Event) (now : Int) : List Event :=
  events.filter (fun ev => now < ev.Start ∧ ev.Start < now + 60 * 86400)

/-- Failures of `loadExistingEvents` other than a missing file. -/
inductive LoadError where
  | readError
  | parseError
  deriving DecidableEq, Inhabited

/-- `loadExistingEvents`: a missing cache file yields an empty list and
no error; otherwise the JSON collaborator (`parseJSON`) decodes the
contents and the redaction collaborator scrubs each description. `file`
is the cache file's contents when it exists. -/
def loadExistingEvents (redact : List Char → List Char)
    (file : Option (List Char))
    (parseJSON : List Char → Option (List Event)) : Except LoadError (List Event) :=
  match file with
  | none => Except.ok []
  | some data =>
    match parseJSON data with
    | none => Except.error LoadError.parseError
    | some evs =>
      Except.ok (evs.map (fun e => { e with Description := redact e.Description }))

/-! ## The interchange serializer

Two variants of the ICS property pipeline exist in the source: the
Google-subscription one keeps real line breaks and folds each embedded
line separately, the Apple-compatibility one strips markup and escapes
every line-break sequence before folding. -/

/-- Concatenation of the images of a per-character expansion. -/
def concatMap (f : Char → List Char) (s : List Char) : List Char :=
  (s.map f).join

namespace AppleICS

/-- The tag-removal half of `stripHTML`: Go's
`regexp.MustCompile("<[^>]*>").ReplaceAllString` — each `<` with a later
`>` is removed together with everything up to that first `>`; a `<`
never followed by `>` matches nothing and the scan ends. -/
def stripTagsGo : Nat → List Char → List Char
  | _, [] => []
  | 0, s => s
  | fuel + 1, c :: rest =>
    if c = '<' then
      if '>' ∈ rest then stripTagsGo fuel ((rest.dropWhile (fun x => x ≠ '>')).tail)
      else '<' :: rest
    else c :: stripTagsGo fuel rest

/-- See the doc comment above: the scan itself, driven by a fuel bound
that dominates the remaining input. -/
def stripTags (s : List Char) : List Char := stripTagsGo s.length s

/-- The entity-decoding half of `stripHTML`: the fixed chain of
`strings.ReplaceAll` substitutions. -/
def decodeEntities (s : List Char) : List Char :=
  let s1 := replaceAll s "&nbsp;".toList " ".toList
  let s2 := replaceAll s1 "&amp;".toList "&".toList
  let s3 := replaceAll s2 "&lt;".toList "<".toList
  let s4 := replaceAll s3 "&gt;".toList ">".toList
  let s5 := replaceAll s4 "&quot;".toList "\"".toList
  let s6 := replaceAll s5 "&#39;".toList "'".toList
  replaceAll s6 "&apos;".toList "'".toList

/-- `stripHTML`: tag removal, then entity decoding. -/
def stripHTML (s : List Char) : List Char := decodeEntities (stripTags s)

/-- `escapeICSText` (Apple variant): backslash, semicolon, comma, then
every CRLF/LF/CR to the literal two-character sequence backslash-`n`. -/
def escapeICSText (s : List Char) : List Char :=
  let s1 := replaceAll s ['\\'] ['\\', '\\']
  let s2 := replaceAll s1 [';'] ['\\', ';']
  let s3 := replaceAll s2 [','] ['\\', ',']
  let s4 := replaceAll s3 ['\r', '\n'] ['\\', 'n']
  let s5 := replaceAll s4 ['\n'] ['\\', 'n']
  replaceAll s5 ['\r'] ['\\', 'n']

/-- The folding loop, structurally recursive on a fuel bound that
dominates the remaining line's length. -/
def foldLineGo : Nat → List Char → List Char
  | 0, text => text
  | fuel + 1, text =>
    if text.length ≤ 75 then text
    else text.take 75 ++ '\r' :: '\n' :: ' ' :: foldLineGo fuel (text.drop 75)

/-- `foldLine` (Apple variant): chop the logical line into 75-unit
chunks, inserting CRLF plus one space before each continuation. -/
def foldLine (text : List Char) : List Char := foldLineGo text.length text

/-- `formatICSProperty` (Apple variant): strip markup, escape, join name
and value with a colon, fold, terminate with CRLF. -/
def formatICSProperty (property value : List Char) : List Char :=
  foldLine (property ++ ':' :: escapeICSText (stripHTML value)) ++ ['\r', '\n']

end AppleICS

namespace GCalICS

/-- `escapeICSText` (Google variant): backslash, semicolon, comma only;
real line breaks stay embedded. -/
def escapeICSText (s : List Char) : List Char :=
  let s1 := replaceAll s ['\\'] ['\\', '\\']
  let s2 := replaceAll s1 [';'] ['\\', ';']
  replaceAll s2 [','] ['\\', ',']

/-- `strings.Split(text, "\n")`. -/
def splitLF : List Char → List (List Char)
  | [] => [[]]
  | c :: rest =>
    if c = '\n' then [] :: splitLF rest
    else (splitLF rest).modifyHead (fun l => c :: l)

/-- The inner folding loop applied to one embedded segment (the same
75-unit chunking as the Apple variant). -/
def foldOne (line : List Char) : List Char := AppleICS.foldLineGo line.length line

/-- `foldLine` (Google variant): fold each segment between real line
breaks independently and join the segments with a real CRLF. -/
def foldLine (text : List Char) : List Char :=
  List.intercalate ['\r', '\n'] ((splitLF text).map foldOne)

/-- `formatICSProperty` (Google variant): escape, join, fold, terminate. -/
def formatICSProperty (property value : List Char) : List Char :=
  foldLine (property ++ ':' :: escapeICSText value) ++ ['\r', '\n']

end GCalICS

/-! ### Spec-side readers: physical lines, un-folding, un-escaping

Modelled from the spec: how a conforming consumer splits the output into
physical lines (§6, CRLF terminators), removes each continuation break
together with its single leading space (§4.1 folding), and decodes the
escape sequences (§8 round-trip). -/

/-- Split a document into physical lines at CRLF. -/
def splitCRLF : List Char → List (List Char)
  | [] => [[]]
  | [c] => [[c]]
  | c :: d :: rest =>
    if c = '\r' ∧ d = '\n' then [] :: splitCRLF rest
    else (splitCRLF (d :: rest)).modifyHead (fun l => c :: l)


/-- Remove every continuation break (CRLF followed by one space). -/
def unfoldICS : List Char → List Char
  | [] => []
  | [c] => [c]
  | [c, d] => [c, d]
  | c :: d :: e :: rest =>
    if c = '\r' ∧ d = '\n' ∧ e = ' ' then unfoldICS rest
    else c :: unfoldICS (d :: e :: rest)


/-- Decode the character following a backslash. -/
def unescapeChar (d : Char) : Char := if d = 'n' ∨ d = 'N' then '\n' else d

/-- Decode the escape sequences of a text value. -/
def unescapeText : List Char → List Char
  | [] => []
  | [c] => [c]
  | c :: d :: rest =>
    if c = '\\' then unescapeChar d :: unescapeText rest
    else c :: unescapeText (d :: rest)


/-! ### Characterising the escaping chain -/

theorem concatMap_nil (f : Char → List Char) : concatMap f [] = [] := rfl

theorem concatMap_cons (f : Char → List Char) (x : Char) (s : List Char) :
    concatMap f (x :: s) = f x ++ concatMap f s := by
  simp [concatMap]

theorem concatMap_append (f : Char → List Char) (a b : List Char) :
    concatMap f (a ++ b) = concatMap f a ++ concatMap f b := by
  simp [concatMap]

theorem mem_concatMap {f : Char → List Char} {s : List Char} {c : Char}
    (h : c ∈ concatMap f s) : ∃ x ∈ s, c ∈ f x := by
  simp only [concatMap, List.mem_join, List.mem_map] at h
  obtain ⟨l, ⟨x, hx, hl⟩, hc⟩ := h
  exact ⟨x, hx, hl ▸ hc⟩

theorem concatMap_concatMap (f g : Char → List Char) (s : List Char) :
    concatMap g (concatMap f s) = concatMap (fun x => concatMap g (f x)) s := by
  induction s with
  | nil => rfl
  | cons x rest ih =>
    rw [concatMap_cons, concatMap_append, ih, concatMap_cons]

theorem replaceAllGo_single (c : Char) (rep : List Char) :
    ∀ (fuel : Nat) (s : List Char), s.length ≤ fuel →
      replaceAllGo [c] rep fuel s
        = concatMap (fun x => if x = c then rep else [x]) s := by
  intro fuel
  induction fuel with
  | zero =>
    intro s hs
    obtain rfl : s = [] := List.eq_nil_of_length_eq_zero (by omega)
    simp [replaceAllGo, concatMap]
  | succ f ih =>
    intro s hs
    cases s with
    | nil => simp [replaceAllGo, concatMap]
    | cons x rest =>
      have hrest : rest.length ≤ f := by
        simp only [List.length_cons] at hs
        omega
      rw [replaceAllGo]
      by_cases hx : x = c
      · subst hx
        rw [if_pos ⟨by simp, by simp [List.isPrefixOf]⟩]
        rw [show (((x :: rest).drop [x].length : List Char)) = rest from rfl]
        rw [ih rest hrest, concatMap_cons, if_pos rfl]
      · rw [if_neg ?_]
        · rw [ih rest hrest, concatMap_cons, if_neg hx]
          rfl
        · intro hcon
          have h2 := hcon.2
          simp [List.isPrefixOf] at h2
          exact hx h2.symm

theorem replaceAll_single (c : Char) (rep : List Char) (s : List Char) :
    replaceAll s [c] rep = concatMap (fun x => if x = c then rep else [x]) s :=
  replaceAllGo_single c rep s.length s (Nat.le_refl _)

theorem replaceAllGo_head_not_mem {p : Char} (ps rep : List Char) :
    ∀ (fuel : Nat) (s : List Char), s.length ≤ fuel → p ∉ s →
      replaceAllGo (p :: ps) rep fuel s = s := by
  intro fuel
  induction fuel with
  | zero =>
    intro s hs _
    obtain rfl : s = [] := List.eq_nil_of_length_eq_zero (by omega)
    simp [replaceAllGo]
  | succ f ih =>
    intro s hs h
    cases s with
    | nil => simp [replaceAllGo]
    | cons x rest =>
      have hrest : rest.length ≤ f := by
        simp only [List.length_cons] at hs
        omega
      rw [replaceAllGo, if_neg]
      · rw [ih rest hrest (fun hc => h (List.mem_cons_of_mem _ hc))]
      · intro hcon
        have h2 := hcon.2
        simp only [List.isPrefixOf, Bool.and_eq_true, beq_iff_eq] at h2
        exact h (by simp [h2.1])

theorem replaceAll_head_not_mem {p : Char} {s : List Char} (ps rep : List Char)
    (h : p ∉ s) : replaceAll s (p :: ps) rep = s :=
  replaceAllGo_head_not_mem ps rep s.length s (Nat.le_refl _) h

theorem mem_replaceAll_single {c : Char} {rep s : List Char} {y : Char}
    (h : y ∈ replaceAll s [c] rep) : y ∈ rep ∨ (y ∈ s ∧ y ≠ c) := by
  rw [replaceAll_single] at h
  obtain ⟨x, hx, hy⟩ := mem_concatMap h
  by_cases hxc : x = c
  · subst hxc
    rw [if_pos rfl] at hy
    exact Or.inl hy
  · rw [if_neg hxc] at hy
    simp only [List.mem_singleton] at hy
    subst hy
    exact Or.inr ⟨hx, hxc⟩

/-- The per-character expansion the three sequential substitutions of
`escapeICSText` amount to. -/
def escChar (c : Char) : List Char :=
  if c = '\\' then ['\\', '\\']
  else if c = ';' then ['\\', ';']
  else if c = ',' then ['\\', ',']
  else [c]

theorem gcal_escape_eq_concatMap (s : List Char) :
    GCalICS.escapeICSText s = concatMap escChar s := by
  unfold GCalICS.escapeICSText
  rw [replaceAll_single, replaceAll_single, replaceAll_single,
    concatMap_concatMap, concatMap_concatMap]
  congr 1
  funext x
  by_cases h1 : x = '\\'
  · subst h1; decide
  · by_cases h2 : x = ';'
    · subst h2; decide
    · by_cases h3 : x = ','
      · subst h3; decide
      · simp [escChar, concatMap_cons, concatMap_nil, h1, h2, h3]

theorem escChar_chars {c x : Char} (h : c ∈ escChar x) : c = x ∨ c = '\\' := by
  unfold escChar at h
  split_ifs at h with h1 h2 h3 <;> simp only [List.mem_cons, List.mem_singleton,
    List.not_mem_nil, or_false] at h
  · rcases h with h | h
    · exact Or.inr h
    · exact Or.inr h
  · rcases h with h | h
    · exact Or.inr h
    · exact Or.inl (h.trans h2.symm ▸ by rw [h, ← h2])
  · rcases h with h | h
    · exact Or.inr h
    · exact Or.inl (by rw [h, ← h3])
  · exact Or.inl h

theorem escape3_no_cr {s : List Char} (hr : '\r' ∉ s) :
    '\r' ∉ GCalICS.escapeICSText s := by
  rw [gcal_escape_eq_concatMap]
  intro h
  obtain ⟨x, hx, hc⟩ := mem_concatMap h
  rcases escChar_chars hc with h1 | h1
  · exact hr (h1 ▸ hx)
  · exact absurd h1 (by decide)

theorem escape3_no_lf {s : List Char} (hn : '\n' ∉ s) :
    '\n' ∉ GCalICS.escapeICSText s := by
  rw [gcal_escape_eq_concatMap]
  intro h
  obtain ⟨x, hx, hc⟩ := mem_concatMap h
  rcases escChar_chars hc with h1 | h1
  · exact hn (h1 ▸ hx)
  · exact absurd h1 (by decide)

theorem apple_escape_eq_gcal {s : List Char} (hr : '\r' ∉ s) (hn : '\n' ∉ s) :
    AppleICS.escapeICSText s = GCalICS.escapeICSText s := by
  show replaceAll (replaceAll (replaceAll (GCalICS.escapeICSText s)
      ['\r', '\n'] ['\\', 'n']) ['\n'] ['\\', 'n']) ['\r'] ['\\', 'n']
    = GCalICS.escapeICSText s
  rw [replaceAll_head_not_mem _ _ (escape3_no_cr hr),
    replaceAll_head_not_mem _ _ (escape3_no_lf hn),
    replaceAll_head_not_mem _ _ (escape3_no_cr hr)]

/-! ### Un-escaping inverts the escaping chain -/

theorem unescape_cons_plain {c : Char} (h : c ≠ '\\') (l : List Char) :
    unescapeText (c :: l) = c :: unescapeText l := by
  match l with
  | [] => simp [unescapeText]
  | [d] => simp [unescapeText, h]
  | d :: e :: rest =>
    rw [unescapeText, if_neg h]

theorem unescape_escape3 (s : List Char) :
    unescapeText (concatMap escChar s) = s := by
  induction s with
  | nil => simp [concatMap, unescapeText]
  | cons x rest ih =>
    rw [concatMap_cons]
    by_cases h1 : x = '\\'
    · subst h1
      show unescapeText ('\\' :: '\\' :: concatMap escChar rest) = _
      rw [unescapeText, if_pos rfl, ih]
      rfl
    · by_cases h2 : x = ';'
      · subst h2
        show unescapeText ('\\' :: ';' :: concatMap escChar rest) = _
        rw [unescapeText, if_pos rfl, ih]
        rfl
      · by_cases h3 : x = ','
        · subst h3
          show unescapeText ('\\' :: ',' :: concatMap escChar rest) = _
          rw [unescapeText, if_pos rfl, ih]
          rfl
        · have hx : escChar x = [x] := by simp [escChar, h1, h2, h3]
          rw [hx, List.singleton_append, unescape_cons_plain h1, ih]

/-! ### Folding bounds and un-folding reconstructs the logical line -/

theorem apple_escape_no_crlf (s : List Char) :
    '\r' ∉ AppleICS.escapeICSText s ∧ '\n' ∉ AppleICS.escapeICSText s := by
  constructor
  · intro h
    rcases mem_replaceAll_single h with h1 | ⟨_, h3⟩
    · exact absurd h1 (by decide)
    · exact h3 rfl
  · intro h
    rcases mem_replaceAll_single h with h1 | ⟨h2, _⟩
    · exact absurd h1 (by decide)
    · rcases mem_replaceAll_single h2 with h4 | ⟨_, h6⟩
      · exact absurd h4 (by decide)
      · exact h6 rfl

theorem splitCRLF_cons_plain {c : Char} (h : c ≠ '\r') (l : List Char) :
    splitCRLF (c :: l) = (splitCRLF l).modifyHead (fun x => c :: x) := by
  match l with
  | [] => simp [splitCRLF, List.modifyHead]
  | d :: rest =>
    rw [splitCRLF, if_neg (fun hc => h hc.1)]

theorem splitCRLF_append_crlf (a b : List Char) (ha : '\r' ∉ a) :
    splitCRLF (a ++ '\r' :: '\n' :: b) = a :: splitCRLF b := by
  induction a with
  | nil =>
    show splitCRLF ('\r' :: '\n' :: b) = [] :: splitCRLF b
    rw [splitCRLF, if_pos ⟨rfl, rfl⟩]
  | cons x xs ih =>
    have hx : x ≠ '\r' := fun hc => ha (by simp [hc])
    rw [List.cons_append, splitCRLF_cons_plain hx,
      ih (fun hc => ha (List.mem_cons_of_mem _ hc))]
    simp [List.modifyHead]

theorem not_mem_take {c : Char} {t : List Char} (h : c ∉ t) (n : Nat) :
    c ∉ t.take n := fun hc => h ((List.take_sublist n t).subset hc)

theorem not_mem_drop {c : Char} {t : List Char} (h : c ∉ t) (n : Nat) :
    c ∉ t.drop n := fun hc => h ((List.drop_sublist n t).subset hc)

theorem foldLineGo_split :
    ∀ (fuel : Nat) (t : List Char), t.length ≤ fuel → '\r' ∉ t →
      ∃ first rest,
        splitCRLF (AppleICS.foldLineGo fuel t ++ ['\r', '\n']) = first :: rest
        ∧ first.length ≤ 75
        ∧ ∀ l ∈ rest, l.length ≤ 76 := by
  intro fuel
  induction fuel with
  | zero =>
    intro t ht hr
    obtain rfl : t = [] := List.eq_nil_of_length_eq_zero (by omega)
    refine ⟨[], [[]], ?_, by simp, by intro l hl; simp at hl; simp [hl]⟩
    decide
  | succ f ih =>
    intro t ht hr
    rw [AppleICS.foldLineGo]
    by_cases hle : t.length ≤ 75
    · rw [if_pos hle]
      have : (t ++ ['\r', '\n'] : List Char) = t ++ '\r' :: '\n' :: [] := rfl
      rw [this, splitCRLF_append_crlf t [] hr]
      refine ⟨t, [[]], ?_, hle, by intro l hl; simp at hl; simp [hl]⟩
      rw [splitCRLF]
    · rw [if_neg hle]
      obtain ⟨first, rest, hsplit, hfirst, hrest⟩ :=
        ih (t.drop 75) (by simp; omega) (not_mem_drop hr 75)
      have hshape : (t.take 75 ++ '\r' :: '\n' :: ' ' :: AppleICS.foldLineGo f (t.drop 75))
          ++ ['\r', '\n']
          = t.take 75
            ++ '\r' :: '\n' :: (' ' :: (AppleICS.foldLineGo f (t.drop 75) ++ ['\r', '\n'])) := by
        simp
      rw [hshape, splitCRLF_append_crlf _ _ (not_mem_take hr 75),
        splitCRLF_cons_plain (by decide), hsplit]
      refine ⟨t.take 75, (' ' :: first) :: rest, by simp [List.modifyHead], ?_, ?_⟩
      · simp
      · intro l hl
        rcases List.mem_cons.mp hl with h1 | h1
        · subst h1
          simp only [List.length_cons]
          omega
        · exact hrest l h1

theorem foldLine_split (t : List Char) (hr : '\r' ∉ t) :
    ∃ first rest, splitCRLF (AppleICS.foldLine t ++ ['\r', '\n']) = first :: rest
      ∧ first.length ≤ 75
      ∧ ∀ l ∈ rest, l.length ≤ 76 :=
  foldLineGo_split t.length t (Nat.le_refl _) hr

theorem unfold_cons_plain {c : Char} (h : c ≠ '\r') (l : List Char) :
    unfoldICS (c :: l) = c :: unfoldICS l := by
  match l with
  | [] => simp [unfoldICS]
  | [d] => simp [unfoldICS]
  | d :: e :: rest =>
    rw [unfoldICS, if_neg (fun hc => h hc.1)]

theorem unfold_append_crlf (t : List Char) (hr : '\r' ∉ t) :
    unfoldICS (t ++ ['\r', '\n']) = t ++ ['\r', '\n'] := by
  induction t with
  | nil => simp [unfoldICS]
  | cons x xs ih =>
    have hx : x ≠ '\r' := fun hc => hr (by simp [hc])
    rw [List.cons_append, unfold_cons_plain hx,
      ih (fun hc => hr (List.mem_cons_of_mem _ hc))]

theorem unfold_marker (a b : List Char) (ha : '\r' ∉ a) :
    unfoldICS (a ++ '\r' :: '\n' :: ' ' :: b) = a ++ unfoldICS b := by
  induction a with
  | nil =>
    show unfoldICS ('\r' :: '\n' :: ' ' :: b) = unfoldICS b
    rw [unfoldICS, if_pos ⟨rfl, rfl, rfl⟩]
  | cons x xs ih =>
    have hx : x ≠ '\r' := fun hc => ha (by simp [hc])
    rw [List.cons_append, unfold_cons_plain hx,
      ih (fun hc => ha (List.mem_cons_of_mem _ hc))]
    simp

theorem unfold_foldLineGo :
    ∀ (fuel : Nat) (t : List Char), t.length ≤ fuel → '\r' ∉ t →
      unfoldICS (AppleICS.foldLineGo fuel t ++ ['\r', '\n']) = t ++ ['\r', '\n'] := by
  intro fuel
  induction fuel with
  | zero =>
    intro t ht hr
    obtain rfl : t = [] := List.eq_nil_of_length_eq_zero (by omega)
    simp [AppleICS.foldLineGo, unfoldICS]
  | succ f ih =>
    intro t ht hr
    rw [AppleICS.foldLineGo]
    by_cases hle : t.length ≤ 75
    · rw [if_pos hle]
      exact unfold_append_crlf t hr
    · rw [if_neg hle]
      have hshape : (t.take 75 ++ '\r' :: '\n' :: ' ' :: AppleICS.foldLineGo f (t.drop 75))
          ++ ['\r', '\n']
          = t.take 75
            ++ '\r' :: '\n' :: ' ' :: (AppleICS.foldLineGo f (t.drop 75) ++ ['\r', '\n']) := by
        simp
      rw [hshape, unfold_marker _ _ (not_mem_take hr 75),
        ih (t.drop 75) (by simp; omega) (not_mem_drop hr 75)]
      rw [← List.append_assoc, List.take_append_drop]

theorem unfold_foldLine (t : List Char) (hr : '\r' ∉ t) :
    unfoldICS (AppleICS.foldLine t ++ ['\r', '\n']) = t ++ ['\r', '\n'] :=
  unfold_foldLineGo t.length t (Nat.le_refl _) hr

/-! ## Concrete fixtures used by witnesses and counterexamples -/

/-- A desired event whose source id is zero. -/
def zeroIdEvent : Event :=
  { ID := 0, Title := "Run".toList, Start := 100, End_ := 3700,
    Description := [], URL := [], Location := [], Organizer := [] }

/-- An ordinary desired event. -/
def runEvent : Event :=
  { ID := 5, Title := "Tempo Run".toList, Start := 1000, End_ := 4600,
    Description := [], URL := [], Location := [], Organizer := [] }

/-- An external item whose correlation tag carries trailing text after
the suffix: not the spec's exact format, yet accepted by the scanner. -/
def trailingJunkItem : GCalItem :=
  { id := 5, iCalUID := "1@strava.comX".toList, summary := "Lunch".toList,
    start := 0, end_ := 0, description := [] }

/-- An external item with a clearly foreign correlation tag. -/
def unmanagedItem : GCalItem :=
  { id := 9, iCalUID := "lunch-with-sam".toList, summary := "Lunch".toList,
    start := 0, end_ := 0, description := [] }

/-- A raw source event with an empty occurrence list. -/
def noOccurrenceStravaEvent : StravaEvent :=
  { ID := 3, Title := "Ghost".toList, Description := [],
    OrganizingFirstName := [], OrganizingLastName := [],
    UpcomingOccurrences := [], Address := [] }

/-- A raw source event that converts successfully. -/
def sampleStravaEvent : StravaEvent :=
  { ID := 7, Title := "Tempo Run".toList, Description := [],
    OrganizingFirstName := "A".toList, OrganizingLastName := "B".toList,
    UpcomingOccurrences := ["2025-06-01T18:30:00Z".toList], Address := [] }

/-- The event `sampleStravaEvent` converts to. -/
def sampleConverted : Event :=
  (convertStravaEvent (fun s => s) "99".toList sampleStravaEvent).toOption.getD default

/-- An event starting exactly at the cache-retention boundary
`now - 7 days` (for `now = 604800`). -/
def boundaryEvent : Event :=
  { ID := 1, Title := [], Start := 0, End_ := 3600,
    Description := [], URL := [], Location := [], Organizer := [] }

/-! ## The claims -/

/-- C1 (counterexample): as stated over every desired set, idempotence
fails — a desired event with id `0` is re-created on every run, because
the correlation tag `0@strava.com` it writes is rejected by the
reconciler's zero guard on read-back. The second run issues a create. -/
theorem claim1_counterexample :
    syncStravaEvents [zeroIdEvent]
      (applyOps [] (syncStravaEvents [zeroIdEvent] [] [] [])) [] [] ≠ [] := by
  decide

/-- C1 (amended): for every desired event set whose ids are pairwise
distinct, nonzero and 64-bit representable, and every existing snapshot
whose opaque item ids are pairwise distinct, running the reconciler
against the state its first run produced yields zero create, update and
delete operations. -/
theorem claim1_idempotent (events : List Event) (existing : List GCalItem)
    (clubID syncTime : List Char)
    (h1 : (events.map Event.ID).Nodup)
    (h2 : ∀ ev ∈ events, ev.ID ≠ 0 ∧ -(2 ^ 63) ≤ ev.ID ∧ ev.ID < 2 ^ 63)
    (h3 : (existing.map GCalItem.id).Nodup) :
    syncStravaEvents events
      (applyOps existing (syncStravaEvents events existing clubID syncTime))
      clubID syncTime = [] :=
  sync_idempotent_aux events existing clubID syncTime h1 h2 h3

/-- C1 (witness): the amended idempotence at a concrete one-event batch. -/
theorem claim1_witness :
    (([runEvent].map Event.ID).Nodup
      ∧ (∀ ev ∈ [runEvent], ev.ID ≠ 0 ∧ -(2 ^ 63) ≤ ev.ID ∧ ev.ID < 2 ^ 63)
      ∧ (([] : List GCalItem).map GCalItem.id).Nodup)
    ∧ syncStravaEvents [runEvent]
        (applyOps [] (syncStravaEvents [runEvent] [] [] [])) [] [] = [] :=
  ⟨⟨by decide, by decide, by decide⟩,
    claim1_idempotent [runEvent] [] [] [] (by decide) (by decide) (by decide)⟩

/-- C2 (counterexample): an existing item whose correlation tag fails
the spec's exact `<integer>@strava.com` format (trailing text after the
suffix) is nonetheless deleted, because `Sscanf` does not require the
input to be exhausted. -/
theorem claim2_counterexample :
    specExactFormat trailingJunkItem.iCalUID = false
    ∧ Op.delete trailingJunkItem.id ∈ syncStravaEvents [] [trailingJunkItem] [] [] := by
  constructor
  · decide
  · decide

/-- C2 (amended): an existing item whose correlation tag the
reconciler's scanner rejects (no parse, out-of-range value, or a parsed
value of zero, i.e. `parseCorrelation` yields `none`) receives no delete
and no update referencing its opaque id — provided opaque ids are
distinct, as calendar snapshots guarantee — and contributes nothing to
the processed set. -/
theorem claim2_isolation (events : List Event) (existing : List GCalItem)
    (clubID syncTime : List Char) (it : GCalItem)
    (hnd : (existing.map GCalItem.id).Nodup)
    (hmem : it ∈ existing)
    (hpar : parseCorrelation it.iCalUID = none) :
    Op.delete it.id ∉ syncStravaEvents events existing clubID syncTime
    ∧ (∀ rec, Op.update it.id rec ∉ syncStravaEvents events existing clubID syncTime)
    ∧ processedContrib events it = none := by
  have hinj := List.inj_on_of_nodup_map hnd
  have hscan : ∀ op, op ∈ existing.filterMap (scanOpFor events clubID syncTime) →
      opTarget op ≠ some it.id := by
    intro op hop htg
    obtain ⟨x, hx, hssome⟩ := List.mem_filterMap.mp hop
    have hxid : x.id = it.id := by
      rcases scanOpFor_some hssome with h1 | ⟨rec, h1⟩ <;>
        (subst h1; exact Option.some.inj htg)
    have hxit : x = it := hinj hx hmem hxid
    subst hxit
    rw [show scanOpFor events clubID syncTime x = none by
      simp [scanOpFor, hpar]] at hssome
    exact Option.noConfusion hssome
  rw [sync_eq_reference]
  unfold syncReference
  refine ⟨?_, ?_, ?_⟩
  · intro hmem2
    rcases List.mem_append.mp hmem2 with h1 | h1
    · exact hscan _ h1 rfl
    · obtain ⟨ev, _, hev⟩ := List.mem_map.mp h1
      exact Op.noConfusion hev
  · intro rec hmem2
    rcases List.mem_append.mp hmem2 with h1 | h1
    · exact hscan _ h1 rfl
    · obtain ⟨ev, _, hev⟩ := List.mem_map.mp h1
      exact Op.noConfusion hev
  · simp [processedContrib, hpar]

/-- C2 (witness): the amended isolation at a concrete snapshot. -/
theorem claim2_witness :
    (([unmanagedItem].map GCalItem.id).Nodup
      ∧ unmanagedItem ∈ [unmanagedItem]
      ∧ parseCorrelation unmanagedItem.iCalUID = none)
    ∧ (Op.delete unmanagedItem.id ∉ syncStravaEvents [runEvent] [unmanagedItem] [] []
      ∧ (∀ rec, Op.update unmanagedItem.id rec
          ∉ syncStravaEvents [runEvent] [unmanagedItem] [] [])
      ∧ processedContrib [runEvent] unmanagedItem = none) :=
  ⟨⟨by decide, by decide, by decide⟩,
    claim2_isolation [runEvent] [unmanagedItem] [] [] unmanagedItem
      (by decide) (by decide) (by decide)⟩

/-- C3: the reconciler's operation list equals the reference definition
— per managed existing item, one delete when its parsed id is absent
from the desired set and one full-record update when a compared field
differs; then one create per desired event not marked processed; nothing
else — for every input. -/
theorem claim3_operations (events : List Event) (existing : List GCalItem)
    (clubID syncTime : List Char) :
    syncStravaEvents events existing clubID syncTime
      = syncReference events existing clubID syncTime :=
  sync_eq_reference events existing clubID syncTime

/-- C4 (counterexample): the claim's 75-unit bound fails — folding a
162-unit logical line leaves a continuation line of 76 units (75 units
of content behind the single leading space); and for a property name
containing a line break the un-folding cannot reconstruct the logical
line, so the amended statement must restrict names to break-free text
(every name the program emits is). -/
theorem claim4_counterexample :
    ((splitCRLF (AppleICS.formatICSProperty ['D'] (List.replicate 160 'a'))).any
      (fun l => 75 < l.length)) = true
    ∧ unfoldICS (AppleICS.formatICSProperty ('A' :: '\r' :: '\n' :: ' ' :: ['B']) [])
      ≠ (('A' :: '\r' :: '\n' :: ' ' :: ['B'])
          ++ ':' :: AppleICS.escapeICSText (AppleICS.stripHTML [])) ++ ['\r', '\n'] := by
  constructor
  · decide
  · decide

/-- C4 (amended): for every property name free of carriage returns and
every value, each physical line of `formatICSProperty name value` is at
most 76 units long (75 content units plus the continuation's leading
space; the first line and the final empty line stay within 75), and
removing every continuation break together with its single leading space
reconstructs the escaped logical line, followed by its CRLF terminator,
exactly. -/
theorem claim4_folding (name value : List Char) (h : '\r' ∉ name) :
    (∀ l ∈ splitCRLF (AppleICS.formatICSProperty name value), l.length ≤ 76)
    ∧ unfoldICS (AppleICS.formatICSProperty name value)
      = (name ++ ':' :: AppleICS.escapeICSText (AppleICS.stripHTML value)) ++ ['\r', '\n'] := by
  have hesc := (apple_escape_no_crlf (AppleICS.stripHTML value)).1
  have hlog : '\r' ∉ name ++ ':' :: AppleICS.escapeICSText (AppleICS.stripHTML value) := by
    intro hc
    rcases List.mem_append.mp hc with h1 | h1
    · exact h h1
    · rcases List.mem_cons.mp h1 with h2 | h2
      · exact absurd h2 (by decide)
      · exact hesc h2
  unfold AppleICS.formatICSProperty
  constructor
  · obtain ⟨first, rest, hsplit, hfirst, hrest⟩ := foldLine_split _ hlog
    rw [hsplit]
    intro l hl
    rcases List.mem_cons.mp hl with h1 | h1
    · subst h1
      omega
    · exact hrest l h1
  · exact unfold_foldLine _ hlog

/-- C4 (witness): the amended folding property at the DESCRIPTION
property and a concrete value. -/
theorem claim4_witness :
    ('\r' ∉ "DESCRIPTION".toList)
    ∧ ((∀ l ∈ splitCRLF (AppleICS.formatICSProperty "DESCRIPTION".toList
          "hello, world; bring \\ spare <b>shoes</b>".toList), l.length ≤ 76)
      ∧ unfoldICS (AppleICS.formatICSProperty "DESCRIPTION".toList
          "hello, world; bring \\ spare <b>shoes</b>".toList)
        = ("DESCRIPTION".toList ++ ':' :: AppleICS.escapeICSText
            (AppleICS.stripHTML "hello, world; bring \\ spare <b>shoes</b>".toList))
          ++ ['\r', '\n']) :=
  ⟨by decide, claim4_folding _ _ (by decide)⟩

/-- C5: `escapeICSText` substitutes backslash first, then semicolon,
then comma (both source variants; the Apple variant additionally rewrites
line breaks, which the hypothesis rules out of `s`), and un-escaping the
escaped text restores `s` exactly. -/
theorem claim5_escape_roundtrip (s : List Char)
    (hr : '\r' ∉ s) (hn : '\n' ∉ s) :
    unescapeText (GCalICS.escapeICSText s) = s
    ∧ unescapeText (AppleICS.escapeICSText s) = s := by
  have h1 : unescapeText (GCalICS.escapeICSText s) = s := by
    rw [gcal_escape_eq_concatMap]
    exact unescape_escape3 s
  exact ⟨h1, by rw [apple_escape_eq_gcal hr hn]; exact h1⟩

/-- C5 (witness): the escaping round-trip on a concrete string holding
every special character. -/
theorem claim5_witness :
    ('\r' ∉ "a\\b;c,d".toList ∧ '\n' ∉ "a\\b;c,d".toList)
    ∧ (unescapeText (GCalICS.escapeICSText "a\\b;c,d".toList) = "a\\b;c,d".toList
      ∧ unescapeText (AppleICS.escapeICSText "a\\b;c,d".toList) = "a\\b;c,d".toList) :=
  ⟨⟨by decide, by decide⟩, claim5_escape_roundtrip _ (by decide) (by decide)⟩

/-- C6 (counterexample): the round-trip fails at id `0` — the formatted
tag `0@strava.com` is rejected by the reconciler's zero guard, so
parsing yields nothing rather than `0`. -/
theorem claim6_counterexample :
    parseCorrelation (formatCorrelation 0) = none := by
  decide

/-- C6 (amended): for every nonzero 64-bit integer id (all Go `int64`
values other than `0`), formatting the correlation identifier
`<id>@strava.com` and parsing it back with the reconciler's parser
yields `id`. -/
theorem claim6_roundtrip (id : Int) (hnz : id ≠ 0)
    (hlo : -(2 ^ 63) ≤ id) (hhi : id < 2 ^ 63) :
    parseCorrelation (formatCorrelation id) = some id :=
  parse_format_correlation hnz hlo hhi

/-- C6 (witness): the amended round-trip at id `12345`. -/
theorem claim6_witness :
    ((12345 : Int) ≠ 0 ∧ -(2 ^ 63) ≤ (12345 : Int) ∧ (12345 : Int) < 2 ^ 63)
    ∧ parseCorrelation (formatCorrelation 12345) = some 12345 :=
  ⟨⟨by decide, by decide, by decide⟩,
    claim6_roundtrip 12345 (by decide) (by decide) (by decide)⟩

/-- C7: conversion fails with `noOccurrence` exactly when the
upcoming-occurrence list is empty, with `timeParseError` exactly when
the list is non-empty but its first timestamp does not parse, and in
either failure case the batch loop drops the event and continues (a
successful conversion is prepended instead). -/
theorem claim7_conversion (redact : List Char → List Char) (clubID : List Char)
    (se : StravaEvent) (rest : List StravaEvent) (e : ConvErr) :
    (convertStravaEvent redact clubID se = Except.error ConvErr.noOccurrence
      ↔ se.UpcomingOccurrences = [])
    ∧ (convertStravaEvent redact clubID se = Except.error ConvErr.timeParseError
      ↔ ∃ t ts, se.UpcomingOccurrences = t :: ts ∧ parseStravaTime t = none)
    ∧ (convertStravaEvent redact clubID se = Except.error e →
        convertAll redact clubID (se :: rest) = convertAll redact clubID rest)
    ∧ (∀ ev, convertStravaEvent redact clubID se = Except.ok ev →
        convertAll redact clubID (se :: rest) = ev :: convertAll redact clubID rest) := by
  refine ⟨?_, ?_, ?_, ?_⟩
  · cases hocc : se.UpcomingOccurrences with
    | nil => simp [convertStravaEvent, hocc]
    | cons t ts =>
      cases hp : parseStravaTime t with
      | none => simp [convertStravaEvent, hocc, hp]
      | some st => simp [convertStravaEvent, hocc, hp]
  · cases hocc : se.UpcomingOccurrences with
    | nil => simp [convertStravaEvent, hocc]
    | cons t ts =>
      cases hp : parseStravaTime t with
      | none => simp [convertStravaEvent, hocc, hp]
      | some st => simp [convertStravaEvent, hocc, hp]
  · intro h
    rw [convertAll, h]
  · intro ev h
    rw [convertAll, h]

/-- C7 (witness): an event with no occurrence is dropped while the batch
continues with the remaining events. -/
theorem claim7_witness :
    convertStravaEvent (fun s => s) ['9'] noOccurrenceStravaEvent
      = Except.error ConvErr.noOccurrence
    ∧ convertAll (fun s => s) ['9'] [noOccurrenceStravaEvent, sampleStravaEvent]
      = convertAll (fun s => s) ['9'] [sampleStravaEvent] :=
  ⟨rfl, (claim7_conversion (fun s => s) ['9'] noOccurrenceStravaEvent
      [sampleStravaEvent] ConvErr.noOccurrence).2.2.1 rfl⟩

/-- C8: every successfully converted event ends exactly one hour
(3600 seconds) after it starts, hence satisfies `end > start`. -/
theorem claim8_end_time (redact : List Char → List Char) (clubID : List Char)
    (se : StravaEvent) (ev : Event)
    (h : convertStravaEvent redact clubID se = Except.ok ev) :
    ev.End_ = ev.Start + 3600 ∧ ev.Start < ev.End_ := by
  cases hocc : se.UpcomingOccurrences with
  | nil => simp [convertStravaEvent, hocc] at h
  | cons t ts =>
    cases hp : parseStravaTime t with
    | none => simp [convertStravaEvent, hocc, hp] at h
    | some st =>
      simp only [convertStravaEvent, hocc, hp, Except.ok.injEq] at h
      subst h
      exact ⟨rfl, by simp⟩

/-- C8 (witness): the one-hour synthesis on a concretely converted
event. -/
theorem claim8_witness :
    convertStravaEvent (fun s => s) "99".toList sampleStravaEvent
      = Except.ok sampleConverted
    ∧ (sampleConverted.End_ = sampleConverted.Start + 3600
      ∧ sampleConverted.Start < sampleConverted.End_) :=
  ⟨rfl, claim8_end_time (fun s => s) "99".toList sampleStravaEvent sampleConverted rfl⟩

/-- C9 (counterexample): the cache-retention filter is strict — an event
starting exactly at `now - 7 days` satisfies the claim's "on or after"
condition yet is dropped. -/
theorem claim9_counterexample :
    filterEvents [boundaryEvent] 604800 = []
    ∧ 604800 - 7 * 86400 ≤ boundaryEvent.Start := by
  constructor
  · decide
  · decide

/-- C9 (amended): the sync/export filter keeps exactly the events whose
start lies strictly between `now` and `now + 60 days`, and the
cache-retention filter keeps exactly the events whose start is strictly
after `now - 7 days`. -/
theorem claim9_time_windows (events : List Event) (now : Int) (ev : Event) :
    (ev ∈ filterNext60Days events now
      ↔ ev ∈ events ∧ now < ev.Start ∧ ev.Start < now + 60 * 86400)
    ∧ (ev ∈ filterEvents events now
      ↔ ev ∈ events ∧ now - 7 * 86400 < ev.Start) := by
  constructor
  · simp [filterNext60Days, List.mem_filter, and_assoc]
  · simp [filterEvents, List.mem_filter]

/-- C10: when the JSON event cache does not exist, loading yields the
empty event list and no error, whatever the redaction and JSON
collaborators do, so the ICS-only and calendar-only paths proceed with
zero events (their 60-day filter of the result is empty). -/
theorem claim10_missing_cache (redact : List Char → List Char)
    (parseJSON : List Char → Option (List Event)) (now : Int) :
    loadExistingEvents redact none parseJSON = Except.ok []
    ∧ filterNext60Days [] now = [] :=
  ⟨rfl, rfl⟩

end StravaCal
